import Mathlib

/-!
Verification of the snownlp-train model-artifact manager.

The development shallowly embeds the artifact-manager logic of the
repository:

* `snownlp_model_utils.py` — structural validation of marshalled model
  files (`_load_marshal_data`, `validate_marshal_model_file`), restore
  from permanent backups (`restore_from_backup`), and the
  backup/stage/validate/rename deploy routine
  (`safe_replace_snownlp_model`).
* the GUI tool — the model catalog (`ModelManager.get_model_list`,
  `ModelManager.update_model`), the sandboxed evaluation session
  (`test_model_worker` with `backup_current_model`,
  `temp_replace_model`, `restore_model`), and the comparison ranking
  (`compare_models_worker`).

The filesystem is modelled as a partial map from path strings to byte
lists.  The external `gzip` and `marshal` libraries are modelled as
parameters (`MarshalLib`): `gz` returns `none` when decompression
raises, `ml` returns `none` when deserialization raises, and returns an
element of the `PyObj` universe otherwise.  Filesystem faults are
injected through an explicit fault oracle, one fault point per
copy/rename operation of the deploy loop; a fault makes the operation
raise without writing.
-/

/-- Byte strings (contents of files). -/

abbrev Bytes := List Nat

/-- The filesystem: a partial map from paths to file contents. -/

abbrev FS := String → Option Bytes

/-- Point update of the filesystem (`none` deletes the file). -/

def upd (fs : FS) (p : String) (v : Option Bytes) : FS :=
  fun q => if q = p then v else fs q

/-- `os.path.join(dir, fname)` for the forward-slash case used throughout. -/

def pjoin (d f : String) : String := d ++ "/" ++ f

/-! ## The marshal/gzip model

`marshal.loads` produces an arbitrary python object; the manager only
inspects whether it is a dict, which string keys are present, and
whether the value at a key is itself a dict.  `PyObj` captures exactly
that much structure. -/

/-- Python objects, to the depth inspected by `_load_marshal_data`:
dictionaries with string keys, and everything else. -/

inductive PyObj where
  | dict (entries : List (String × PyObj))
  | other

/-- The external `gzip`/`marshal` libraries.  `gz raw = none` models
`gzip.decompress(raw)` raising; `ml raw = none` models
`marshal.loads(raw)` raising. -/

structure MarshalLib where
  gz : Bytes → Option Bytes
  ml : Bytes → Option PyObj

/-- The pure part of `_load_marshal_data` after the file has been read:
optional transparent gzip decompression falling back to the raw bytes,
`marshal.loads`, then the structural checks.  Returns `none` on success
and the raised error message otherwise. -/

def contentCheck (L : MarshalLib) (raw : Bytes) : Option String :=
  let raw' := (L.gz raw).getD raw
  match L.ml raw' with
  | none => some "marshal loads raised"
  | some data =>
    match data with
    | PyObj.dict kvs =>
      if (kvs.lookup "total").isNone || (kvs.lookup "d").isNone then
        some "marshal dict missing required keys"
      else
        match kvs.lookup "d" with
        | some (PyObj.dict _) => none
        | _ => some "marshal dict field d is not a dict"
    | PyObj.other => some "marshal data is not a dict"

/-- `validate_marshal_model_file(path)`: reads the file (a missing file
makes `open` raise, which the caller turns into an error string) and
runs the structural checks.  `none` means valid. -/

def validate_marshal_model_file (L : MarshalLib) (fs : FS) (path : String) : Option String :=
  match fs path with
  | none => some ("No such file or directory: " ++ path)
  | some raw => contentCheck L raw

/-! ## The atomic swapper (`snownlp_model_utils.py`)

`safe_replace_snownlp_model` and `restore_from_backup`, with the
filesystem passed explicitly.  Faults of the copy/rename system calls
are injected through an oracle; a fault makes the call raise without
writing. -/

/-- Result record of `safe_replace_snownlp_model` / `restore_from_backup`. -/

structure ReplaceResult where
  success : Bool
  sentiment_dir : Option String
  replaced_files : List String
  error : Option String
deriving DecidableEq

/-- Fault points of the deploy loop, one per fallible filesystem call. -/

inductive FaultPt where
  | backupCopy (fname : String)
  | stageCopy (fname : String)
  | commitRename (fname : String)
deriving DecidableEq

/-- Outcome of one slot of the deploy loop: the new filesystem, plus the
raised message when a step raised. -/

inductive StepRes where
  | ok (fs : FS)
  | err (fs : FS) (msg : String)

/-- The filesystem reached by a step, whether it raised or not. -/

def StepRes.fs : StepRes → FS
  | .ok fs => fs
  | .err fs _ => fs

/-- The stage-and-commit tail of one slot of
`safe_replace_snownlp_model`: copy the source into `<target>.tmp_new`,
re-validate the staged copy (deleting it when invalid), then atomically
rename it onto the target. -/

def stageAndCommit (L : MarshalLib) (fail : FaultPt → Bool) (d src fname : String)
    (fs : FS) : StepRes :=
  let tpath := pjoin d fname
  let tmp := tpath ++ ".tmp_new"
  if fail (FaultPt.stageCopy fname) then
    StepRes.err fs ("copy failed: " ++ src)
  else
    match fs src with
    | none => StepRes.err fs ("copy failed: " ++ src)
    | some cs =>
      let fs2 := upd fs tmp (some cs)
      match validate_marshal_model_file L fs2 tmp with
      | some e => StepRes.err (upd fs2 tmp none) ("new model validation failed: " ++ e)
      | none =>
        if fail (FaultPt.commitRename fname) then
          StepRes.err fs2 "rename failed"
        else
          StepRes.ok (upd (upd fs2 tmp none) tpath (some cs))

/-- The per-slot body of `safe_replace_snownlp_model`: back the target up
once (only if the target exists and no permanent backup exists yet),
then stage and commit. -/

def deployStep (L : MarshalLib) (fail : FaultPt → Bool) (d src fname : String)
    (fs : FS) : StepRes :=
  let tpath := pjoin d fname
  let bpath := tpath ++ ".backup_gui"
  if (fs tpath).isSome && (fs bpath).isNone then
    if fail (FaultPt.backupCopy fname) then
      StepRes.err fs "backup copy failed"
    else
      stageAndCommit L fail d src fname (upd fs bpath (fs tpath))
  else
    stageAndCommit L fail d src fname fs

/-- The `for fname in targets` loop of `safe_replace_snownlp_model`:
runs `deployStep` on each target in order, accumulating committed slot
names; stops at the first raise with the partial commit list. -/

def deployLoop (L : MarshalLib) (fail : FaultPt → Bool) (d src : String) :
    List String → FS → List String → FS × List String × Option String
  | [], fs, acc => (fs, acc, none)
  | f :: rest, fs, acc =>
    match deployStep L fail d src f fs with
    | StepRes.ok fs' => deployLoop L fail d src rest fs' (acc ++ [f])
    | StepRes.err fs' e => (fs', acc, some e)

/-- The fixed slot names scanned by `restore_from_backup`. -/

def restoreNames : List String := ["sentiment.marshal.3", "sentiment.marshal"]

/-- The loop of `restore_from_backup`: for each fixed slot name, if the
permanent backup exists, copy it over the target. -/

def restoreLoop (d : String) : List String → FS → List String → FS × List String
  | [], fs, acc => (fs, acc)
  | f :: rest, fs, acc =>
    let tpath := pjoin d f
    let bpath := tpath ++ ".backup_gui"
    match fs bpath with
    | some b => restoreLoop d rest (upd fs tpath (some b)) (acc ++ [f])
    | none => restoreLoop d rest fs acc

/-- `restore_from_backup(sentiment_dir)`: copies each existing
`<slot>.backup_gui` over its slot; fails when no backup file was found.
(The python body also catches copy exceptions; copies are fault-free in
this model, so that branch is not represented.) -/

def restore_from_backup (fs : FS) (d : String) : FS × ReplaceResult :=
  let r := restoreLoop d restoreNames fs []
  if r.2 = [] then
    (r.1, ⟨false, some d, [], some "no .backup_gui files found"⟩)
  else
    (r.1, ⟨true, some d, r.2, none⟩)

/-- `get_effective_model_filenames(replace_legacy_py2_file)`; `py3` is
`sys.version_info[0] >= 3`. -/

def get_effective_model_filenames (py3 legacy : Bool) : List String :=
  let targets := if py3 then ["sentiment.marshal.3"] else ["sentiment.marshal"]
  if legacy && !(targets.contains "sentiment.marshal") then
    targets ++ ["sentiment.marshal"]
  else
    targets

/-- `safe_replace_snownlp_model(source_model_file, sentiment_dir, ...)`.
`sd` is the sentiment directory after the default resolution (`none`
models `get_snownlp_sentiment_dir()` having failed); `isdir` models
`os.path.isdir`.  On any raise inside the loop the partial commit set is
kept in `replaced_files`, `restore_from_backup` is attempted, and a
failure result is returned. -/

def safe_replace_snownlp_model (L : MarshalLib) (fail : FaultPt → Bool)
    (src : String) (sd : Option String) (isdir : String → Bool)
    (py3 legacy : Bool) (fs : FS) : FS × ReplaceResult :=
  match sd with
  | none => (fs, ⟨false, none, [], some "snownlp sentiment dir not found"⟩)
  | some d =>
    if d = "" || !(isdir d) then
      (fs, ⟨false, some d, [], some "snownlp sentiment dir not found"⟩)
    else if fs src = none then
      (fs, ⟨false, some d, [], some ("source model file not found: " ++ src)⟩)
    else
      match validate_marshal_model_file L fs src with
      | some e => (fs, ⟨false, some d, [], some ("invalid source model file: " ++ e)⟩)
      | none =>
        let targets := get_effective_model_filenames py3 legacy
        match deployLoop L fail d src targets fs [] with
        | (fs1, rep, none) => (fs1, ⟨!rep.isEmpty, some d, rep, none⟩)
        | (fs1, rep, some e) =>
          let fs2 := (restore_from_backup fs1 d).1
          (fs2, ⟨false, some d, rep, some e⟩)

/-! ## Path toolkit for the swapper lemmas -/

/-- The target (live slot) path of a slot name. -/

def tpO (d f : String) : String := pjoin d f

/-- The permanent backup path of a slot name. -/

def bpO (d f : String) : String := pjoin d f ++ ".backup_gui"

/-- The staging path of a slot name. -/

def tmpO (d f : String) : String := pjoin d f ++ ".tmp_new"

/-- The slot names the swapper can ever target. -/

def slotName (f : String) : Prop :=
  f = "sentiment.marshal.3" ∨ f = "sentiment.marshal"

/-! ## Concrete worlds for witnesses -/

/-- The empty filesystem. -/

def emptyFS : FS := fun _ => none

/-- A concrete marshal/gzip model: nothing is gzip-compressed, and only
the byte string `[0]` deserializes, into a structurally valid model. -/

def LW : MarshalLib :=
  { gz := fun _ => none
    ml := fun b =>
      if b = [0] then some (PyObj.dict [("total", PyObj.other), ("d", PyObj.dict [])])
      else none }

/-- The fault-free oracle. -/

def noFaults : FaultPt → Bool := fun _ => false

/-- A fault oracle that makes the atomic rename of the legacy slot fail. -/

def failLegacyRename : FaultPt → Bool := fun p =>
  match p with
  | FaultPt.commitRename g => g = "sentiment.marshal"
  | _ => false

/-- `os.path.isdir` that accepts everything. -/

def anyDir : String → Bool := fun _ => true

/-! ## The model catalog (`ModelManager` of the GUI tool)

The state carries both the in-memory `self.models` map and the persisted
JSON document; `save_models` copies memory to disk.  Entries are kept as
a path plus opaque metadata; `os.path.exists` is a parameter. -/

structure MMEntry where
  path : String
  meta : List (String × String)
deriving DecidableEq

structure MMState where
  models : List (String × MMEntry)
  persisted : List (String × MMEntry)
deriving DecidableEq

/-- `ModelManager.save_models`: rewrite the persisted document from the
in-memory map (write errors are swallowed by the source; the model
assumes the write succeeds). -/

def save_models (st : MMState) : MMState := { st with persisted := st.models }

/-- `ModelManager.get_model_list`: filter the in-memory map down to the
entries whose path exists, persist the filtered map when the length
changed, and return the filtered entries. -/

def get_model_list (pathExists : String → Bool) (st : MMState) :
    MMState × List (String × MMEntry) :=
  let valid := st.models.filter (fun p => pathExists p.2.path)
  if valid.length ≠ st.models.length then
    (save_models { st with models := valid }, valid)
  else
    (st, valid)

/-- `ModelManager.update_model`: merge updates into an existing entry and
persist; absent ids fall through silently.  The dict merge applied to
the entry is abstracted as an entry transformer — claims about it only
concern the absent-id case, where it is never applied. -/

def update_model (st : MMState) (model_id : String) (updates : MMEntry → MMEntry) : MMState :=
  if (st.models.lookup model_id).isSome then
    let models' := st.models.map (fun p => if p.1 = model_id then (p.1, updates p.2) else p)
    save_models { st with models := models' }
  else
    st

/-! ## Comparison ranking (`compare_models_worker` of the GUI tool)

The worker collects one record per evaluated model and runs
`results.sort(key=lambda x: x["accuracy"], reverse=True)`.  Python
`list.sort` is specified as a *stable* sort; with `reverse=True` it
yields the descending order in which equal-key elements keep their input
order.  That specification determines the output uniquely, so the
embedding realizes it with a stable descending insertion sort.  The
float accuracy (`correct/total`) is embedded as an exact rational; only
its ordering is used. -/

structure CompResult where
  name : String
  accuracy : ℚ
  correct : Nat
  total : Nat
deriving DecidableEq

/-- Insert one record into a descending-sorted list, after all earlier
records with greater-or-equal accuracy (stability). -/

def insertDesc (x : CompResult) : List CompResult → List CompResult
  | [] => [x]
  | y :: ys => if y.accuracy ≤ x.accuracy then x :: y :: ys else y :: insertDesc x ys

/-- Stable descending sort by accuracy, the observable behaviour of
`results.sort(key=lambda x: x["accuracy"], reverse=True)`. -/

def sortByAccuracyDesc : List CompResult → List CompResult
  | [] => []
  | x :: xs => insertDesc x (sortByAccuracyDesc xs)

/-- The ranked list shown by `compare_models_worker`. -/

def compare_models_rank (results : List CompResult) : List CompResult :=
  sortByAccuracyDesc results

/-- The recommended model: `results[0]` of the ranked list, when any. -/

def compare_models_best (results : List CompResult) : Option CompResult :=
  (compare_models_rank results).head?

/-! ## Sandboxed evaluation (`test_model_worker` of the GUI tool)

`backup_current_model` copies each existing live slot to
`<slot>.temp_backup`; `temp_replace_model` copies the candidate over
every existing live slot; the benchmark (`run_basic_test`) only reads,
and may raise (injected through a flag); `restore_model` — reached on
the `finally` path — copies each temp backup back over the path obtained
by `backup_path.replace(".temp_backup", "")` (python `str.replace`,
all occurrences) and deletes the temp backup.  The sentiment directory
is resolved at runtime from the installed package; it is represented
here by a fixed location. -/

/-- Does `p` start with `s`? -/

def listStartsWith : List Char → List Char → Bool
  | [], _ => true
  | _ :: _, [] => false
  | p :: ps, c :: cs => p == c && listStartsWith ps cs

/-- Left-to-right, non-overlapping replacement of every occurrence of a
(nonempty) pattern, python `str.replace` on char lists; fuelled by the
input length. -/

def replaceAllAux : Nat → List Char → List Char → List Char → List Char
  | 0, s, _, _ => s
  | fuel + 1, s, pat, rep =>
    if !pat.isEmpty && listStartsWith pat s then
      rep ++ replaceAllAux fuel (s.drop pat.length) pat rep
    else
      match s with
      | [] => []
      | c :: cs => c :: replaceAllAux fuel cs pat rep

/-- python `s.replace(pat, rep)`. -/

def pyReplace (s pat rep : String) : String :=
  ⟨replaceAllAux s.data.length s.data pat.data rep.data⟩

/-- The runtime-resolved snownlp sentiment directory, represented by a
fixed abstract location. -/

def sentDir : String := "snownlp/sentiment"

/-- Iteration order of the GUI worker helpers. -/

def liveSlots : List String := ["sentiment.marshal", "sentiment.marshal.3"]

/-- `backup_current_model`: copy each existing live slot to its
`.temp_backup` sibling, collecting the backup paths. -/

def backup_current_model (fs : FS) : FS × List String :=
  liveSlots.foldl
    (fun acc fname =>
      let fpath := pjoin sentDir fname
      if (acc.1 fpath).isSome then
        (upd acc.1 (fpath ++ ".temp_backup") (acc.1 fpath), acc.2 ++ [fpath ++ ".temp_backup"])
      else acc)
    (fs, [])

/-- One `shutil.copy2(model_file, target_file)` of `temp_replace_model`
(re-reading the source; a missing source would raise, which the
surrounding `except` turns into `False` — unreachable here since the
source was just checked and is never deleted). -/

def copyTo (model_file : String) (f : FS) (t : String) : FS :=
  match f model_file with
  | some c => upd f t (some c)
  | none => f

/-- `temp_replace_model`: abort when the candidate is missing or no live
slot exists; otherwise copy the candidate over every existing slot. -/

def temp_replace_model (fs : FS) (model_file : String) : FS × Bool :=
  if fs model_file = none then (fs, false)
  else
    let target_files := (liveSlots.map (pjoin sentDir)).filter (fun p => (fs p).isSome)
    if target_files.isEmpty then (fs, false)
    else (target_files.foldl (copyTo model_file) fs, true)

/-- `restore_model`: copy each still-existing temp backup over its
original path (recomputed by python `str.replace`) and delete it. -/

def restore_model (fs : FS) (backup_files : List String) : FS :=
  backup_files.foldl
    (fun f b =>
      match f b with
      | some c => upd (upd f (pyReplace b ".temp_backup" "") (some c)) b none
      | none => f)
    fs

/-- `test_model_worker`: back up, deploy the candidate, benchmark
(possibly raising), and restore on the guaranteed `finally` path.
Returns the final filesystem and whether the injected benchmark
exception escaped. -/

def test_model_worker (fs : FS) (model_path : String) (benchRaises : Bool) : FS × Bool :=
  let bk := backup_current_model fs
  let tr := temp_replace_model bk.1 model_path
  let raised := tr.2 && benchRaises
  let final := if bk.2.isEmpty then tr.1 else restore_model tr.1 bk.2
  (final, raised)

theorem upd_same (fs : FS) (p : String) (v : Option Bytes) : upd fs p v p = v := by
  simp [upd]

theorem upd_ne (fs : FS) (p q : String) (v : Option Bytes) (h : q ≠ p) :
    upd fs p v q = fs q := by
  simp [upd, h]

theorem String.data_inj {s t : String} (h : s.data = t.data) : s = t :=
  String.ext h

theorem append_left_inj (d u v : String) (h : d ++ u = d ++ v) : u = v := by
  apply String.data_inj
  have h' : (d ++ u).data = (d ++ v).data := by rw [h]
  rw [String.data_append, String.data_append] at h'
  exact List.append_cancel_left h'

theorem pjoin_suffix_inj (d : String) (u v : String) (h : pjoin d "" ++ u = pjoin d "" ++ v) :
    u = v :=
  append_left_inj _ _ _ h

/-- Normal form: `pjoin d f ++ s = (d ++ "/") ++ (f ++ s)`. -/
theorem pjoin_append (d f s : String) : pjoin d f ++ s = (d ++ "/") ++ (f ++ s) := by
  apply String.data_inj
  simp [pjoin, String.data_append, List.append_assoc]

theorem pjoin_eq (d f : String) : pjoin d f = (d ++ "/") ++ f := rfl

/-- Distinct suffixes give distinct paths under the same directory. -/
theorem pjoin_ne_of_ne (d : String) {u v : String} (h : u ≠ v) :
    (d ++ "/") ++ u ≠ (d ++ "/") ++ v := by
  intro he
  exact h (append_left_inj _ _ _ he)

/-- Two strings with incomparable reversed suffixes are distinct, whatever
the prefixes are.  Used to separate paths written under different
directories. -/
theorem append_ne_append_of_suffix (u v : String)
    (h1 : ¬ (u.data.reverse <+: v.data.reverse))
    (h2 : ¬ (v.data.reverse <+: u.data.reverse)) :
    ∀ a b : String, a ++ u ≠ b ++ v := by
  intro a b he
  have hd : a.data ++ u.data = b.data ++ v.data := by
    have := congrArg String.data he
    rwa [String.data_append, String.data_append] at this
  have hr : u.data.reverse ++ a.data.reverse = v.data.reverse ++ b.data.reverse := by
    have := congrArg List.reverse hd
    simpa [List.reverse_append] using this
  have p1 : u.data.reverse <+: (u.data.reverse ++ a.data.reverse) := ⟨a.data.reverse, rfl⟩
  have p2 : v.data.reverse <+: (u.data.reverse ++ a.data.reverse) := by
    rw [hr]; exact ⟨b.data.reverse, rfl⟩
  rcases List.prefix_or_prefix_of_prefix p1 p2 with h | h
  · exact h1 h
  · exact h2 h

/-- C2: `validate_marshal_model_file` succeeds iff the file exists and its
bytes, after the optional gzip fallback, deserialize into a dict holding
both keys `total` and `d` with the value at `d` itself a dict.  In every
other case it returns an error string (the embedding is a total function
into `Option String`, mirroring that the python function catches every
exception and never raises). -/
theorem validate_ok_iff (L : MarshalLib) (fs : FS) (path : String) :
    validate_marshal_model_file L fs path = none ↔
      ∃ raw kvs, fs path = some raw ∧
        L.ml ((L.gz raw).getD raw) = some (PyObj.dict kvs) ∧
        (kvs.lookup "total").isSome ∧
        ∃ dd, kvs.lookup "d" = some (PyObj.dict dd) := by
  unfold validate_marshal_model_file
  cases hf : fs path with
  | none =>
    simp only
    constructor
    · intro h; cases h
    · rintro ⟨raw', kvs', hraw, _⟩; cases hraw
  | some raw =>
    simp only
    unfold contentCheck
    simp only
    cases hm : L.ml ((L.gz raw).getD raw) with
    | none =>
      simp only
      constructor
      · intro h; cases h
      · rintro ⟨raw', kvs', hraw, hml, _⟩
        cases hraw
        rw [hm] at hml
        cases hml
    | some data =>
      cases data with
      | other =>
        simp only
        constructor
        · intro h; cases h
        · rintro ⟨raw', kvs', hraw, hml, _⟩
          cases hraw
          rw [hm] at hml
          cases hml
      | dict kvs =>
        simp only
        by_cases ht : (kvs.lookup "total").isNone
        · rw [if_pos (by simp [ht])]
          constructor
          · intro h; cases h
          · rintro ⟨raw', kvs', hraw, hml, htot, _⟩
            cases hraw
            rw [hm] at hml
            cases hml
            rw [Option.isNone_iff_eq_none] at ht
            rw [ht] at htot
            cases htot
        · by_cases hd : (kvs.lookup "d").isNone
          · rw [if_pos (by simp [hd])]
            constructor
            · intro h; cases h
            · rintro ⟨raw', kvs', hraw, hml, _, dd, hdd⟩
              cases hraw
              rw [hm] at hml
              cases hml
              rw [Option.isNone_iff_eq_none] at hd
              rw [hd] at hdd
              cases hdd
          · rw [if_neg (by simp [ht, hd])]
            cases hdv : kvs.lookup "d" with
            | none =>
              rw [Option.isNone_iff_eq_none] at hd
              exact absurd hdv hd
            | some v =>
              cases v with
              | dict dd =>
                simp only
                constructor
                · intro _
                  refine ⟨raw, kvs, rfl, hm, ?_, dd, hdv⟩
                  cases hto : kvs.lookup "total" with
                  | none => rw [Option.isNone_iff_eq_none] at ht; exact absurd hto ht
                  | some _ => simp
                · intro _; trivial
              | other =>
                simp only
                constructor
                · intro h; cases h
                · rintro ⟨raw', kvs', hraw, hml, _, dd, hdd⟩
                  cases hraw
                  rw [hm] at hml
                  cases hml
                  rw [hdv] at hdd
                  cases hdd

theorem get_effective_slotNames (py3 legacy : Bool) :
    ∀ f ∈ get_effective_model_filenames py3 legacy, slotName f := by
  intro f hf
  cases py3 <;> cases legacy <;> simp [get_effective_model_filenames] at hf
  all_goals first
    | (exact Or.inl hf)
    | (exact Or.inr hf)
    | (rcases hf with h | h
       · exact Or.inl h
       · exact Or.inr h)

theorem restore_slotNames : ∀ f ∈ restoreNames, slotName f := by
  intro f hf
  simp [restoreNames] at hf
  rcases hf with h | h
  · exact Or.inl h
  · exact Or.inr h

/-- No path of the form `a ++ ".backup_gui"` is a staging path. -/
theorem bpA_ne_tmp (a d g : String) : a ++ ".backup_gui" ≠ tmpO d g := by
  have h := append_ne_append_of_suffix ".backup_gui" ".tmp_new"
    (by decide) (by decide) a (pjoin d g)
  exact h

/-- No path of the form `a ++ ".backup_gui"` is a slot target path. -/
theorem bpA_ne_tp (a d g : String) (hg : slotName g) : a ++ ".backup_gui" ≠ tpO d g := by
  rcases hg with h | h
  · subst h
    simp only [tpO, pjoin_eq]
    exact append_ne_append_of_suffix ".backup_gui" "sentiment.marshal.3"
      (by decide) (by decide) a (d ++ "/")
  · subst h
    simp only [tpO, pjoin_eq]
    exact append_ne_append_of_suffix ".backup_gui" "sentiment.marshal"
      (by decide) (by decide) a (d ++ "/")

theorem bp_ne_tp (d f d' g : String) (hg : slotName g) : bpO d f ≠ tpO d' g :=
  bpA_ne_tp (pjoin d f) d' g hg

theorem bp_ne_tmp (d f d' g : String) : bpO d f ≠ tmpO d' g :=
  bpA_ne_tmp (pjoin d f) d' g

theorem bp_ne_bp (d : String) {f g : String} (hf : slotName f) (hg : slotName g)
    (hne : f ≠ g) : bpO d f ≠ bpO d g := by
  rw [bpO, bpO, pjoin_append, pjoin_append]
  apply pjoin_ne_of_ne
  rcases hf with h | h <;> rcases hg with h' | h' <;> subst h <;> subst h' <;>
    first | (exact absurd rfl hne) | decide

theorem tp_ne_tp (d : String) {f g : String} (hf : slotName f) (hg : slotName g)
    (hne : f ≠ g) : tpO d f ≠ tpO d g := by
  rw [tpO, tpO, pjoin_eq, pjoin_eq]
  exact pjoin_ne_of_ne d hne

theorem tp_ne_tmp (d : String) {f g : String} (hf : slotName f) (hg : slotName g) :
    tpO d f ≠ tmpO d g := by
  rw [tpO, tmpO, pjoin_eq, pjoin_append]
  apply pjoin_ne_of_ne
  rcases hf with h | h <;> rcases hg with h' | h' <;> subst h <;> subst h' <;> decide

theorem tmp_ne_tmp (d : String) {f g : String} (hf : slotName f) (hg : slotName g)
    (hne : f ≠ g) : tmpO d f ≠ tmpO d g := by
  rw [tmpO, tmpO, pjoin_append, pjoin_append]
  apply pjoin_ne_of_ne
  rcases hf with h | h <;> rcases hg with h' | h' <;> subst h <;> subst h' <;>
    first | (exact absurd rfl hne) | decide

theorem append_ne_empty_right (s t : String) (h : t ≠ "") : s ++ t ≠ s := by
  intro he
  apply h
  apply String.data_inj
  have h' : (s ++ t).data = s.data := by rw [he]
  rw [String.data_append] at h'
  have h2 : s.data ++ t.data = s.data ++ ([] : List Char) := by simpa using h'
  simpa using List.append_cancel_left h2

theorem bp_ne_tp_self (d f : String) : bpO d f ≠ tpO d f :=
  append_ne_empty_right (pjoin d f) ".backup_gui" (by decide)

theorem tmp_ne_tp_self (d f : String) : tmpO d f ≠ tpO d f :=
  append_ne_empty_right (pjoin d f) ".tmp_new" (by decide)

theorem bp_ne_tmp_self (d f : String) : bpO d f ≠ tmpO d f :=
  bp_ne_tmp d f d f

/-- Stage-and-commit writes only the staging and target paths of its slot. -/
theorem sac_frame (L : MarshalLib) (fail : FaultPt → Bool) (d src f : String)
    (fs : FS) (q : String) (h1 : q ≠ tpO d f) (h3 : q ≠ tmpO d f) :
    (stageAndCommit L fail d src f fs).fs q = fs q := by
  rw [tpO] at h1
  rw [tmpO] at h3
  unfold stageAndCommit
  simp only
  repeat' split
  all_goals simp [StepRes.fs, upd, h1, h3]

/-- Characterization of a successful stage-and-commit: the source was
readable and the result is exactly stage + unstage + rename. -/
theorem sac_ok_cases (L : MarshalLib) (fail : FaultPt → Bool) (d src f : String)
    (fs : FS) (fs' : FS) (h : stageAndCommit L fail d src f fs = StepRes.ok fs') :
    ∃ cs, fs src = some cs ∧
      fs' = upd (upd (upd fs (tmpO d f) (some cs)) (tmpO d f) none) (tpO d f) (some cs) := by
  unfold stageAndCommit at h
  simp only at h
  by_cases h1 : fail (FaultPt.stageCopy f) = true
  · rw [if_pos h1] at h; cases h
  · rw [if_neg h1] at h
    cases hsrc : fs src with
    | none => rw [hsrc] at h; cases h
    | some cs =>
      rw [hsrc] at h
      simp only at h
      cases hval : validate_marshal_model_file L
          (upd fs (pjoin d f ++ ".tmp_new") (some cs)) (pjoin d f ++ ".tmp_new") with
      | some e => rw [hval] at h; cases h
      | none =>
        rw [hval] at h
        by_cases h2 : fail (FaultPt.commitRename f) = true
        · rw [if_pos h2] at h; cases h
        · rw [if_neg h2] at h
          injection h with h'
          exact ⟨cs, rfl, h'.symm⟩

/-- A successful stage-and-commit happens deterministically when the
copies and the rename are fault-free and the source exists and is valid. -/
theorem sac_ok_of (L : MarshalLib) (fail : FaultPt → Bool) (d src f : String)
    (fs : FS) (cs : Bytes)
    (hf2 : fail (FaultPt.stageCopy f) = false)
    (hf3 : fail (FaultPt.commitRename f) = false)
    (hsrc : fs src = some cs) (hv : contentCheck L cs = none) :
    ∃ fs', stageAndCommit L fail d src f fs = StepRes.ok fs' := by
  have hval : validate_marshal_model_file L
      (upd fs (pjoin d f ++ ".tmp_new") (some cs)) (pjoin d f ++ ".tmp_new") = none := by
    unfold validate_marshal_model_file
    rw [upd_same]
    exact hv
  refine ⟨upd (upd (upd fs (pjoin d f ++ ".tmp_new") (some cs))
      (pjoin d f ++ ".tmp_new") none) (pjoin d f) (some cs), ?_⟩
  unfold stageAndCommit
  simp [hf2, hsrc, hval, hf3]

/-- A deploy step writes only the target, backup, and staging paths of
its own slot. -/
theorem deployStep_frame (L : MarshalLib) (fail : FaultPt → Bool) (d src f : String)
    (fs : FS) (q : String) (h1 : q ≠ tpO d f) (h2 : q ≠ bpO d f) (h3 : q ≠ tmpO d f) :
    (deployStep L fail d src f fs).fs q = fs q := by
  unfold deployStep
  simp only
  split
  · split
    · simp [StepRes.fs]
    · rw [sac_frame L fail d src f _ q h1 h3]
      exact upd_ne _ _ _ _ (by rw [bpO] at h2; exact h2)
  · exact sac_frame L fail d src f fs q h1 h3

/-- A deploy step never overwrites an existing permanent backup of its
own slot. -/
theorem deployStep_bp_preserve (L : MarshalLib) (fail : FaultPt → Bool) (d src f : String)
    (fs : FS) (b : Bytes) (hb : fs (bpO d f) = some b) :
    (deployStep L fail d src f fs).fs (bpO d f) = some b := by
  unfold deployStep
  simp only
  have hguard : ((fs (pjoin d f)).isSome && (fs (pjoin d f ++ ".backup_gui")).isNone) = false := by
    rw [bpO] at hb
    simp [hb]
  rw [if_neg (by simp [hguard])]
  rw [sac_frame L fail d src f fs _ (bp_ne_tp_self d f) (bp_ne_tmp_self d f)]
  exact hb

/-- If the target exists, no backup does, and the backup copy is
fault-free, a deploy step creates the permanent backup from the target
content — whether or not a later part of the step raises. -/
theorem deployStep_bp_create (L : MarshalLib) (fail : FaultPt → Bool) (d src f : String)
    (fs : FS) (c : Bytes) (hb : fs (bpO d f) = none) (ht : fs (tpO d f) = some c)
    (hfault : fail (FaultPt.backupCopy f) = false) :
    (deployStep L fail d src f fs).fs (bpO d f) = some c := by
  unfold deployStep
  simp only
  rw [bpO] at hb
  rw [tpO] at ht
  rw [if_pos (by simp [hb, ht])]
  rw [if_neg (by simp [hfault])]
  rw [sac_frame L fail d src f _ _ (bp_ne_tp_self d f) (bp_ne_tmp_self d f)]
  rw [bpO, upd_same, ht]

/-- If the target does not exist, a deploy step leaves the backup path
untouched. -/
theorem deployStep_bp_notarget (L : MarshalLib) (fail : FaultPt → Bool) (d src f : String)
    (fs : FS) (ht : fs (tpO d f) = none) :
    (deployStep L fail d src f fs).fs (bpO d f) = fs (bpO d f) := by
  unfold deployStep
  simp only
  rw [tpO] at ht
  rw [if_neg (by simp [ht])]
  exact sac_frame L fail d src f fs _ (bp_ne_tp_self d f) (bp_ne_tmp_self d f)

/-- A successful deploy step either skipped the backup block or ran it
fault-free; in both cases the tail is a successful stage-and-commit. -/
theorem deployStep_ok_split (L : MarshalLib) (fail : FaultPt → Bool) (d src f : String)
    (fs : FS) (fs' : FS) (h : deployStep L fail d src f fs = StepRes.ok fs') :
    (((fs (tpO d f)).isSome && (fs (bpO d f)).isNone) = false ∧
      stageAndCommit L fail d src f fs = StepRes.ok fs') ∨
    (((fs (tpO d f)).isSome && (fs (bpO d f)).isNone) = true ∧
      fail (FaultPt.backupCopy f) = false ∧
      stageAndCommit L fail d src f (upd fs (bpO d f) (fs (tpO d f))) = StepRes.ok fs') := by
  unfold deployStep at h
  simp only at h
  simp only [tpO, bpO]
  cases hgb : ((fs (pjoin d f)).isSome && (fs (pjoin d f ++ ".backup_gui")).isNone) with
  | false =>
    rw [hgb] at h
    rw [if_neg (by simp)] at h
    exact Or.inl ⟨rfl, h⟩
  | true =>
    rw [hgb] at h
    rw [if_pos rfl] at h
    by_cases hf : fail (FaultPt.backupCopy f) = true
    · rw [if_pos hf] at h; cases h
    · rw [if_neg hf] at h
      exact Or.inr ⟨rfl, by simpa using hf, h⟩

/-- A successful deploy step puts the source content onto the target. -/
theorem deployStep_ok_target (L : MarshalLib) (fail : FaultPt → Bool) (d src f : String)
    (fs : FS) (fs' : FS) (cs : Bytes)
    (h : deployStep L fail d src f fs = StepRes.ok fs') (hsrc : fs src = some cs) :
    fs' (tpO d f) = some cs := by
  rcases deployStep_ok_split L fail d src f fs fs' h with ⟨_, hs⟩ | ⟨hg, _, hs⟩
  · rcases sac_ok_cases L fail d src f fs fs' hs with ⟨cs', hsrc', hfs⟩
    rw [hsrc] at hsrc'
    cases hsrc'
    rw [hfs, upd_same]
  · rcases sac_ok_cases L fail d src f _ fs' hs with ⟨cs', hsrc', hfs⟩
    have hsb : src ≠ bpO d f := by
      intro he
      rw [he] at hsrc
      simp [hsrc] at hg
    rw [upd_ne _ _ _ _ hsb, hsrc] at hsrc'
    cases hsrc'
    rw [hfs, upd_same]

/-- A successful deploy step keeps the source readable with the same
content, provided the source is not this slot's staging path. -/
theorem deployStep_ok_src (L : MarshalLib) (fail : FaultPt → Bool) (d src f : String)
    (fs : FS) (fs' : FS) (cs : Bytes)
    (h : deployStep L fail d src f fs = StepRes.ok fs') (hsrc : fs src = some cs)
    (hst : src ≠ tmpO d f) :
    fs' src = some cs := by
  by_cases htp : src = tpO d f
  · rw [htp]
    exact deployStep_ok_target L fail d src f fs fs' cs h hsrc
  · rcases deployStep_ok_split L fail d src f fs fs' h with ⟨_, hs⟩ | ⟨hg, _, hs⟩
    · rcases sac_ok_cases L fail d src f fs fs' hs with ⟨cs', _, hfs⟩
      rw [hfs, upd_ne _ _ _ _ htp, upd_ne _ _ _ _ hst, upd_ne _ _ _ _ hst]
      exact hsrc
    · rcases sac_ok_cases L fail d src f _ fs' hs with ⟨cs', _, hfs⟩
      have hsb : src ≠ bpO d f := by
        intro he
        rw [he] at hsrc
        simp [hsrc] at hg
      rw [hfs, upd_ne _ _ _ _ htp, upd_ne _ _ _ _ hst, upd_ne _ _ _ _ hst,
        upd_ne _ _ _ _ hsb]
      exact hsrc

/-- Fault-free deploy step on a readable valid source succeeds. -/
theorem deployStep_ok_of (L : MarshalLib) (fail : FaultPt → Bool) (d src f : String)
    (fs : FS) (cs : Bytes)
    (hf1 : fail (FaultPt.backupCopy f) = false)
    (hf2 : fail (FaultPt.stageCopy f) = false)
    (hf3 : fail (FaultPt.commitRename f) = false)
    (hsrc : fs src = some cs) (hv : contentCheck L cs = none) :
    ∃ fs', deployStep L fail d src f fs = StepRes.ok fs' := by
  unfold deployStep
  simp only
  by_cases hg : ((fs (pjoin d f)).isSome && (fs (pjoin d f ++ ".backup_gui")).isNone) = true
  · rw [if_pos hg, if_neg (by simp [hf1])]
    have hsb : src ≠ pjoin d f ++ ".backup_gui" := by
      intro he
      rw [he] at hsrc
      simp [hsrc] at hg
    have hsrc1 : upd fs (pjoin d f ++ ".backup_gui") (fs (pjoin d f)) src = some cs := by
      rw [upd_ne _ _ _ _ hsb]
      exact hsrc
    exact sac_ok_of L fail d src f _ cs hf2 hf3 hsrc1 hv
  · rw [if_neg hg]
    exact sac_ok_of L fail d src f fs cs hf2 hf3 hsrc hv

/-- The deploy loop writes only slot-derived paths of its targets. -/
theorem deployLoop_frame (L : MarshalLib) (fail : FaultPt → Bool) (d src : String) :
    ∀ (l : List String) (fs : FS) (acc : List String) (q : String),
      (∀ g ∈ l, q ≠ tpO d g ∧ q ≠ bpO d g ∧ q ≠ tmpO d g) →
      (deployLoop L fail d src l fs acc).1 q = fs q := by
  intro l
  induction l with
  | nil => intro fs acc q _; rfl
  | cons g rest ih =>
    intro fs acc q hq
    obtain ⟨h1, h2, h3⟩ := hq g (by simp)
    have hstep := deployStep_frame L fail d src g fs q h1 h2 h3
    unfold deployLoop
    cases hs : deployStep L fail d src g fs with
    | ok fs1 =>
      rw [hs] at hstep
      simp only
      rw [ih fs1 (acc ++ [g]) q (fun g' hg' => hq g' (by simp [hg']))]
      exact hstep
    | err fs1 e =>
      rw [hs] at hstep
      exact hstep

/-- The deploy loop never overwrites an existing permanent-backup file
(any path of the form `a ++ ".backup_gui"`), under any directory. -/
theorem deployLoop_bp_preserve (L : MarshalLib) (fail : FaultPt → Bool) (d src : String) :
    ∀ (l : List String) (fs : FS) (acc : List String) (a : String) (b : Bytes),
      (∀ g ∈ l, slotName g) →
      fs (a ++ ".backup_gui") = some b →
      (deployLoop L fail d src l fs acc).1 (a ++ ".backup_gui") = some b := by
  intro l
  induction l with
  | nil => intro fs acc a b _ hb; exact hb
  | cons g rest ih =>
    intro fs acc a b hall hb
    have hg : slotName g := hall g (by simp)
    have hstep : (deployStep L fail d src g fs).fs (a ++ ".backup_gui") = some b := by
      by_cases hq : a ++ ".backup_gui" = bpO d g
      · rw [hq]
        rw [hq] at hb
        exact deployStep_bp_preserve L fail d src g fs b hb
      · rw [deployStep_frame L fail d src g fs _ (bpA_ne_tp a d g hg) hq (bpA_ne_tmp a d g)]
        exact hb
    unfold deployLoop
    cases hs : deployStep L fail d src g fs with
    | ok fs1 =>
      rw [hs] at hstep
      simp only
      exact ih fs1 (acc ++ [g]) a b (fun g' hg' => hall g' (by simp [hg'])) hstep
    | err fs1 e =>
      rw [hs] at hstep
      exact hstep

/-- If a slot was committed by the loop, started with no permanent
backup, and its target existed, then the loop created the permanent
backup from the pre-loop target content (and it survives to the end of
the loop, raised or not). -/
theorem deployLoop_commit_backup (L : MarshalLib) (fail : FaultPt → Bool) (d src : String) :
    ∀ (l : List String) (fs : FS) (acc : List String) (f : String) (c : Bytes),
      (∀ g ∈ l, slotName g) → slotName f →
      f ∉ acc →
      fs (bpO d f) = none → fs (tpO d f) = some c →
      f ∈ (deployLoop L fail d src l fs acc).2.1 →
      (deployLoop L fail d src l fs acc).1 (bpO d f) = some c := by
  intro l
  induction l with
  | nil =>
    intro fs acc f c _ _ hnot _ _ hmem
    exact absurd hmem hnot
  | cons g rest ih =>
    intro fs acc f c hall hf hnot hb ht hmem
    have hgname : slotName g := hall g (by simp)
    unfold deployLoop at hmem ⊢
    cases hs : deployStep L fail d src g fs with
    | err fs1 e =>
      rw [hs] at hmem
      exact absurd hmem hnot
    | ok fs1 =>
      rw [hs] at hmem
      simp only at hmem ⊢
      by_cases hfg : f = g
      · subst hfg
        rcases deployStep_ok_split L fail d src f fs fs1 hs with ⟨hguard, _⟩ | ⟨_, hfault, _⟩
        · rw [ht, hb] at hguard
          simp at hguard
        · have hcreate := deployStep_bp_create L fail d src f fs c hb ht hfault
          rw [hs] at hcreate
          exact deployLoop_bp_preserve L fail d src rest fs1 (acc ++ [f]) (pjoin d f) c
            (fun g' hg' => hall g' (by simp [hg'])) hcreate
      · have hb1 : fs1 (bpO d f) = none := by
          have := deployStep_frame L fail d src g fs (bpO d f)
            (bp_ne_tp d f d g hgname) (bp_ne_bp d hf hgname hfg) (bp_ne_tmp d f d g)
          rw [hs] at this
          simp only [StepRes.fs] at this
          rw [this]
          exact hb
        have ht1 : fs1 (tpO d f) = some c := by
          have := deployStep_frame L fail d src g fs (tpO d f)
            (tp_ne_tp d hf hgname hfg) (Ne.symm (bp_ne_tp d g d f hf)) (tp_ne_tmp d hf hgname)
          rw [hs] at this
          simp only [StepRes.fs] at this
          rw [this]
          exact ht
        exact ih fs1 (acc ++ [g]) f c (fun g' hg' => hall g' (by simp [hg'])) hf
          (by simp [hnot, hfg]) hb1 ht1 hmem

/-- Committed slots reported by the loop come from the accumulator or
the target list. -/
theorem deployLoop_rep_sub (L : MarshalLib) (fail : FaultPt → Bool) (d src : String) :
    ∀ (l : List String) (fs : FS) (acc : List String) (x : String),
      x ∈ (deployLoop L fail d src l fs acc).2.1 → x ∈ acc ∨ x ∈ l := by
  intro l
  induction l with
  | nil => intro fs acc x hx; exact Or.inl hx
  | cons g rest ih =>
    intro fs acc x hx
    unfold deployLoop at hx
    cases hs : deployStep L fail d src g fs with
    | err fs1 e =>
      rw [hs] at hx
      exact Or.inl hx
    | ok fs1 =>
      rw [hs] at hx
      simp only at hx
      rcases ih fs1 (acc ++ [g]) x hx with h | h
      · rcases List.mem_append.mp h with h' | h'
        · exact Or.inl h'
        · simp at h'
          exact Or.inr (by simp [h'])
      · exact Or.inr (by simp [h])

/-- A fault-free deploy loop over a readable valid source commits every
target in order and leaves each target holding the source content. -/
theorem deployLoop_ok_of (L : MarshalLib) (fail : FaultPt → Bool) (d src : String) :
    ∀ (l : List String) (fs : FS) (acc : List String) (cs : Bytes),
      (∀ g ∈ l, slotName g) → l.Nodup →
      (∀ g ∈ l, fail (FaultPt.backupCopy g) = false ∧ fail (FaultPt.stageCopy g) = false ∧
        fail (FaultPt.commitRename g) = false) →
      (∀ g ∈ l, src ≠ tmpO d g) →
      fs src = some cs → contentCheck L cs = none →
      ∃ fs1, deployLoop L fail d src l fs acc = (fs1, acc ++ l, none) ∧
        fs1 src = some cs ∧ ∀ f ∈ l, fs1 (tpO d f) = some cs := by
  intro l
  induction l with
  | nil =>
    intro fs acc cs _ _ _ _ hsrc _
    exact ⟨fs, by simp [deployLoop], hsrc, by simp⟩
  | cons g rest ih =>
    intro fs acc cs hall hnd hff hst hsrc hv
    obtain ⟨hf1, hf2, hf3⟩ := hff g (by simp)
    obtain ⟨fs1, hs⟩ := deployStep_ok_of L fail d src g fs cs hf1 hf2 hf3 hsrc hv
    have hsrc1 : fs1 src = some cs :=
      deployStep_ok_src L fail d src g fs fs1 cs hs hsrc (hst g (by simp))
    have htg1 : fs1 (tpO d g) = some cs :=
      deployStep_ok_target L fail d src g fs fs1 cs hs hsrc
    obtain ⟨fs2, hloop, hsrc2, htp2⟩ := ih fs1 (acc ++ [g]) cs
      (fun g' hg' => hall g' (by simp [hg'])) (List.Nodup.of_cons hnd)
      (fun g' hg' => hff g' (by simp [hg'])) (fun g' hg' => hst g' (by simp [hg']))
      hsrc1 hv
    refine ⟨fs2, ?_, hsrc2, ?_⟩
    · unfold deployLoop
      rw [hs]
      simp only
      rw [hloop]
      simp
    · intro f hfm
      rcases List.mem_cons.mp hfm with hfg | hfr
      · subst hfg
        have hgname : slotName f := hall f (by simp)
        have hfr2 : f ∉ rest := (List.nodup_cons.mp hnd).1
        have hframe := deployLoop_frame L fail d src rest fs1 (acc ++ [f]) (tpO d f)
          (fun g' hg' => by
            have hg'name : slotName g' := hall g' (by simp [hg'])
            have hne : f ≠ g' := fun he => hfr2 (he ▸ hg')
            exact ⟨tp_ne_tp d hgname hg'name hne,
              Ne.symm (bp_ne_tp d g' d f hgname), tp_ne_tmp d hgname hg'name⟩)
        rw [hloop] at hframe
        simp only at hframe
        rw [hframe]
        exact htg1
      · exact htp2 f hfr

/-- The restore loop writes only the target paths of its slots. -/
theorem restoreLoop_frame (d : String) :
    ∀ (l : List String) (fs : FS) (acc : List String) (q : String),
      (∀ g ∈ l, q ≠ tpO d g) →
      (restoreLoop d l fs acc).1 q = fs q := by
  intro l
  induction l with
  | nil => intro fs acc q _; rfl
  | cons g rest ih =>
    intro fs acc q hq
    unfold restoreLoop
    simp only
    cases hb : fs (pjoin d g ++ ".backup_gui") with
    | some b =>
      simp only
      rw [ih _ _ q (fun g' hg' => hq g' (by simp [hg']))]
      exact upd_ne _ _ _ _ (hq g (by simp))
    | none =>
      simp only
      exact ih fs acc q (fun g' hg' => hq g' (by simp [hg']))

/-- The restore loop never writes a permanent-backup path. -/
theorem restoreLoop_bp_frame (d : String) :
    ∀ (l : List String) (fs : FS) (acc : List String) (a : String),
      (∀ g ∈ l, slotName g) →
      (restoreLoop d l fs acc).1 (a ++ ".backup_gui") = fs (a ++ ".backup_gui") := by
  intro l fs acc a hall
  exact restoreLoop_frame d l fs acc _ (fun g hg => bpA_ne_tp a d g (hall g hg))

/-- The restored set is exactly the slots whose permanent backup exists. -/
theorem restoreLoop_rep (d : String) :
    ∀ (l : List String) (fs : FS) (acc : List String),
      (∀ g ∈ l, slotName g) →
      (restoreLoop d l fs acc).2 =
        acc ++ l.filter (fun g => (fs (bpO d g)).isSome) := by
  intro l
  induction l with
  | nil => intro fs acc _; simp [restoreLoop]
  | cons g rest ih =>
    intro fs acc hall
    have hg : slotName g := hall g (by simp)
    unfold restoreLoop
    simp only
    cases hb : fs (pjoin d g ++ ".backup_gui") with
    | some b =>
      simp only
      rw [ih _ _ (fun g' hg' => hall g' (by simp [hg']))]
      have hfilter : rest.filter
            (fun g' => ((upd fs (pjoin d g) (some b)) (bpO d g')).isSome) =
          rest.filter (fun g' => (fs (bpO d g')).isSome) := by
        apply List.filter_congr
        intro g' hg'
        rw [upd_ne _ _ _ _ (show bpO d g' ≠ pjoin d g from bp_ne_tp d g' d g hg)]
      rw [hfilter]
      have : (fs (bpO d g)).isSome = true := by rw [bpO, hb]; rfl
      simp [this]
    | none =>
      simp only
      rw [ih _ _ (fun g' hg' => hall g' (by simp [hg']))]
      have : (fs (bpO d g)).isSome = false := by rw [bpO, hb]; rfl
      simp [this]

/-- A slot with an existing permanent backup ends the restore loop
holding the backup content. -/
theorem restoreLoop_sets (d : String) :
    ∀ (l : List String) (fs : FS) (acc : List String) (f : String) (b : Bytes),
      (∀ g ∈ l, slotName g) → slotName f → f ∈ l → l.Nodup →
      fs (bpO d f) = some b →
      (restoreLoop d l fs acc).1 (tpO d f) = some b := by
  intro l
  induction l with
  | nil => intro fs acc f b _ _ hmem _ _; cases hmem
  | cons g rest ih =>
    intro fs acc f b hall hf hmem hnd hb
    have hg : slotName g := hall g (by simp)
    unfold restoreLoop
    simp only
    by_cases hfg : f = g
    · subst hfg
      rw [bpO] at hb
      rw [hb]
      simp only
      rw [restoreLoop_frame d rest _ _ (tpO d f) (fun g' hg' => by
        have hgs : slotName g' := hall g' (by simp [hg'])
        have hne : f ≠ g' := fun he => ((List.nodup_cons.mp hnd).1 (he ▸ hg'))
        exact tp_ne_tp d hf hgs hne)]
      rw [tpO, upd_same]
    · have hmem' : f ∈ rest := by
        rcases List.mem_cons.mp hmem with h | h
        · exact absurd h hfg
        · exact h
      cases hbg : fs (pjoin d g ++ ".backup_gui") with
      | some bg =>
        simp only
        apply ih _ _ f b (fun g' hg' => hall g' (by simp [hg'])) hf hmem'
          (List.Nodup.of_cons hnd)
        rw [upd_ne _ _ _ _ (show bpO d f ≠ pjoin d g from bp_ne_tp d f d g hg)]
        exact hb
      | none =>
        simp only
        exact ih fs acc f b (fun g' hg' => hall g' (by simp [hg'])) hf hmem'
          (List.Nodup.of_cons hnd) hb

/-- A slot with no permanent backup is not touched by the restore loop. -/
theorem restoreLoop_skip (d : String) :
    ∀ (l : List String) (fs : FS) (acc : List String) (f : String),
      (∀ g ∈ l, slotName g) → slotName f →
      fs (bpO d f) = none →
      (restoreLoop d l fs acc).1 (tpO d f) = fs (tpO d f) := by
  intro l
  induction l with
  | nil => intro fs acc f _ _ _; rfl
  | cons g rest ih =>
    intro fs acc f hall hf hb
    have hg : slotName g := hall g (by simp)
    unfold restoreLoop
    simp only
    by_cases hfg : f = g
    · subst hfg
      rw [bpO] at hb
      rw [hb]
      simp only
      exact ih fs acc f (fun g' hg' => hall g' (by simp [hg'])) hf (by rw [bpO]; exact hb)
    · cases hbg : fs (pjoin d g ++ ".backup_gui") with
      | some bg =>
        simp only
        rw [ih _ _ f (fun g' hg' => hall g' (by simp [hg'])) hf
          (by rw [upd_ne _ _ _ _ (show bpO d f ≠ pjoin d g from bp_ne_tp d f d g hg)]
              exact hb)]
        exact upd_ne _ _ _ _ (tp_ne_tp d hf hg hfg)
      | none =>
        simp only
        exact ih fs acc f (fun g' hg' => hall g' (by simp [hg'])) hf hb

theorem slotName_mem_restoreNames {f : String} (hf : slotName f) : f ∈ restoreNames := by
  rcases hf with h | h <;> subst h <;> simp [restoreNames]

theorem restoreNames_nodup : restoreNames.Nodup := by
  simp [restoreNames]

theorem get_effective_nodup (py3 legacy : Bool) :
    (get_effective_model_filenames py3 legacy).Nodup := by
  cases py3 <;> cases legacy <;> simp [get_effective_model_filenames]

/-- The filesystem returned by `restore_from_backup` is the loop result. -/
theorem rfb_fs (fs : FS) (d : String) :
    (restore_from_backup fs d).1 = (restoreLoop d restoreNames fs []).1 := by
  unfold restore_from_backup
  simp only
  split <;> rfl

/-- The `replaced_files` of `restore_from_backup` is the set of slots
whose permanent backup exists. -/
theorem rfb_rep (fs : FS) (d : String) :
    (restoreLoop d restoreNames fs []).2 =
      restoreNames.filter (fun g => (fs (bpO d g)).isSome) := by
  simpa using restoreLoop_rep d restoreNames fs [] restore_slotNames

/-- When no permanent backup exists, the restore loop does nothing. -/
theorem restoreLoop_id (d : String) :
    ∀ (l : List String) (fs : FS) (acc : List String),
      (∀ g ∈ l, fs (bpO d g) = none) →
      restoreLoop d l fs acc = (fs, acc) := by
  intro l
  induction l with
  | nil => intro fs acc _; rfl
  | cons g rest ih =>
    intro fs acc hall
    unfold restoreLoop
    simp only
    have hg : fs (pjoin d g ++ ".backup_gui") = none := hall g (by simp)
    rw [hg]
    exact ih fs acc (fun g' hg' => hall g' (by simp [hg']))

/-- On a slot with no permanent backup, a step that begins with no target
leaves the backup path unchanged; with a target it either leaves the
backup path absent or fills it with the pre-step target content. -/
theorem deployStep_bp_cases (L : MarshalLib) (fail : FaultPt → Bool) (d src f : String)
    (fs : FS) (hb : fs (bpO d f) = none) :
    (deployStep L fail d src f fs).fs (bpO d f) = none ∨
    (deployStep L fail d src f fs).fs (bpO d f) = fs (tpO d f) := by
  unfold deployStep
  simp only
  cases hgb : ((fs (pjoin d f)).isSome && (fs (pjoin d f ++ ".backup_gui")).isNone) with
  | false =>
    rw [if_neg (by simp)]
    left
    rw [sac_frame L fail d src f fs _ (bp_ne_tp_self d f) (bp_ne_tmp_self d f)]
    exact hb
  | true =>
    rw [if_pos rfl]
    by_cases hf : fail (FaultPt.backupCopy f) = true
    · rw [if_pos hf]
      left
      exact hb
    · rw [if_neg hf]
      right
      rw [sac_frame L fail d src f _ _ (bp_ne_tp_self d f) (bp_ne_tmp_self d f)]
      rw [bpO]
      rw [tpO]
      exact upd_same fs _ _

/-- Across a whole deploy loop, a slot backup that was absent either
stays absent or holds exactly the pre-loop target content. -/
theorem deployLoop_bp_cases (L : MarshalLib) (fail : FaultPt → Bool) (d src : String) :
    ∀ (l : List String) (fs : FS) (acc : List String) (f : String),
      (∀ g ∈ l, slotName g) → slotName f → l.Nodup →
      fs (bpO d f) = none →
      (deployLoop L fail d src l fs acc).1 (bpO d f) = none ∨
      (deployLoop L fail d src l fs acc).1 (bpO d f) = fs (tpO d f) := by
  intro l
  induction l with
  | nil => intro fs acc f _ _ _ hb; exact Or.inl hb
  | cons g rest ih =>
    intro fs acc f hall hf hnd hb
    have hg : slotName g := hall g (by simp)
    unfold deployLoop
    by_cases hfg : f = g
    · subst hfg
      rcases deployStep_bp_cases L fail d src f fs hb with hcase | hcase
      · cases hs : deployStep L fail d src f fs with
        | err fs1 e =>
          rw [hs] at hcase
          exact Or.inl hcase
        | ok fs1 =>
          rw [hs] at hcase
          simp only [StepRes.fs] at hcase
          simp only
          have hrest : f ∉ rest := (List.nodup_cons.mp hnd).1
          have hframe := deployLoop_frame L fail d src rest fs1 (acc ++ [f]) (bpO d f)
            (fun g' hg' => by
              have hgs : slotName g' := hall g' (by simp [hg'])
              have hne : f ≠ g' := fun he => hrest (he ▸ hg')
              exact ⟨bp_ne_tp d f d g' hgs, bp_ne_bp d hf hgs hne, bp_ne_tmp d f d g'⟩)
          rw [hframe, hcase]
          exact Or.inl rfl
      · cases hs : deployStep L fail d src f fs with
        | err fs1 e =>
          rw [hs] at hcase
          exact Or.inr hcase
        | ok fs1 =>
          rw [hs] at hcase
          simp only [StepRes.fs] at hcase
          simp only
          have hrest : f ∉ rest := (List.nodup_cons.mp hnd).1
          have hframe := deployLoop_frame L fail d src rest fs1 (acc ++ [f]) (bpO d f)
            (fun g' hg' => by
              have hgs : slotName g' := hall g' (by simp [hg'])
              have hne : f ≠ g' := fun he => hrest (he ▸ hg')
              exact ⟨bp_ne_tp d f d g' hgs, bp_ne_bp d hf hgs hne, bp_ne_tmp d f d g'⟩)
          rw [hframe, hcase]
          exact Or.inr rfl
    · have hframe := deployStep_frame L fail d src g fs (bpO d f)
        (bp_ne_tp d f d g hg) (bp_ne_bp d hf hg hfg) (bp_ne_tmp d f d g)
      have hframe_tp := deployStep_frame L fail d src g fs (tpO d f)
        (tp_ne_tp d hf hg hfg) (Ne.symm (bp_ne_tp d g d f hf)) (tp_ne_tmp d hf hg)
      cases hs : deployStep L fail d src g fs with
      | err fs1 e =>
        rw [hs] at hframe
        simp only [StepRes.fs] at hframe
        simp only
        rw [hframe]
        exact Or.inl hb
      | ok fs1 =>
        rw [hs] at hframe hframe_tp
        simp only [StepRes.fs] at hframe hframe_tp
        simp only
        rw [← hframe_tp]
        apply ih fs1 (acc ++ [g]) f (fun g' hg' => hall g' (by simp [hg'])) hf
          (List.Nodup.of_cons hnd)
        rw [hframe]
        exact hb

/-- A slot whose target does not exist gets no permanent backup from the
deploy loop. -/
theorem deployLoop_bp_notarget (L : MarshalLib) (fail : FaultPt → Bool) (d src : String) :
    ∀ (l : List String) (fs : FS) (acc : List String) (f : String),
      (∀ g ∈ l, slotName g) → slotName f → l.Nodup →
      fs (tpO d f) = none →
      (deployLoop L fail d src l fs acc).1 (bpO d f) = fs (bpO d f) := by
  intro l
  induction l with
  | nil => intro fs acc f _ _ _ _; rfl
  | cons g rest ih =>
    intro fs acc f hall hf hnd ht
    have hg : slotName g := hall g (by simp)
    unfold deployLoop
    by_cases hfg : f = g
    · subst hfg
      have hstep := deployStep_bp_notarget L fail d src f fs ht
      cases hs : deployStep L fail d src f fs with
      | err fs1 e =>
        rw [hs] at hstep
        simp only [StepRes.fs] at hstep
        simp only
        exact hstep
      | ok fs1 =>
        rw [hs] at hstep
        simp only [StepRes.fs] at hstep
        simp only
        have hrest : f ∉ rest := (List.nodup_cons.mp hnd).1
        have hframe := deployLoop_frame L fail d src rest fs1 (acc ++ [f]) (bpO d f)
          (fun g' hg' => by
            have hgs : slotName g' := hall g' (by simp [hg'])
            have hne : f ≠ g' := fun he => hrest (he ▸ hg')
            exact ⟨bp_ne_tp d f d g' hgs, bp_ne_bp d hf hgs hne, bp_ne_tmp d f d g'⟩)
        rw [hframe, hstep]
    · have hframe := deployStep_frame L fail d src g fs (bpO d f)
        (bp_ne_tp d f d g hg) (bp_ne_bp d hf hg hfg) (bp_ne_tmp d f d g)
      have hframe_tp := deployStep_frame L fail d src g fs (tpO d f)
        (tp_ne_tp d hf hg hfg) (Ne.symm (bp_ne_tp d g d f hf)) (tp_ne_tmp d hf hg)
      cases hs : deployStep L fail d src g fs with
      | err fs1 e =>
        rw [hs] at hframe
        simp only [StepRes.fs] at hframe
        simp only
        exact hframe
      | ok fs1 =>
        rw [hs] at hframe hframe_tp
        simp only [StepRes.fs] at hframe hframe_tp
        simp only
        rw [← hframe]
        apply ih fs1 (acc ++ [g]) f (fun g' hg' => hall g' (by simp [hg'])) hf
          (List.Nodup.of_cons hnd)
        rw [hframe_tp]
        exact ht

/-- After the entry checks pass, `safe_replace_snownlp_model` is the
deploy loop plus, on a raise, the rollback. -/
theorem safe_replace_run (L : MarshalLib) (fail : FaultPt → Bool)
    (src d : String) (isdir : String → Bool) (py3 legacy : Bool) (fs : FS)
    (hd : d ≠ "") (hisdir : isdir d = true) (hsrc : ¬ fs src = none)
    (hval : validate_marshal_model_file L fs src = none) :
    safe_replace_snownlp_model L fail src (some d) isdir py3 legacy fs =
      (match deployLoop L fail d src (get_effective_model_filenames py3 legacy) fs [] with
        | (fs1, rep, none) => (fs1, ⟨!rep.isEmpty, some d, rep, none⟩)
        | (fs1, rep, some e) => ((restore_from_backup fs1 d).1, ⟨false, some d, rep, some e⟩)) := by
  unfold safe_replace_snownlp_model
  simp only
  rw [if_neg (by simp [hd, hisdir])]
  rw [if_neg hsrc]
  rw [hval]

/-- A deploy call never overwrites an existing permanent-backup file,
whatever its directory, source, faults, or flags. -/
theorem safe_replace_bp_preserve (L : MarshalLib) (fail : FaultPt → Bool)
    (src : String) (sd : Option String) (isdir : String → Bool) (py3 legacy : Bool)
    (fs : FS) (a : String) (b : Bytes)
    (hb : fs (a ++ ".backup_gui") = some b) :
    (safe_replace_snownlp_model L fail src sd isdir py3 legacy fs).1 (a ++ ".backup_gui") = some b := by
  unfold safe_replace_snownlp_model
  cases sd with
  | none => exact hb
  | some d =>
    simp only
    by_cases h1 : (decide (d = "") || !isdir d) = true
    · rw [if_pos h1]
      exact hb
    · rw [if_neg h1]
      by_cases h2 : fs src = none
      · rw [if_pos h2]
        exact hb
      · rw [if_neg h2]
        cases hv : validate_marshal_model_file L fs src with
        | some e => exact hb
        | none =>
          simp only
          have hl := deployLoop_bp_preserve L fail d src
            (get_effective_model_filenames py3 legacy) fs [] a b
            (get_effective_slotNames py3 legacy) hb
          rcases hres : deployLoop L fail d src (get_effective_model_filenames py3 legacy) fs []
            with ⟨fs1, rep, opt⟩
          rw [hres] at hl
          simp only at hl
          cases opt with
          | none => exact hl
          | some e =>
            simp only
            rw [rfb_fs]
            rw [restoreLoop_bp_frame d restoreNames fs1 [] a restore_slotNames]
            exact hl

/-- If a slot had no permanent backup before a deploy call and has one
after it, the backup content is the slot target content from before the
call. -/
theorem safe_replace_bp_create_source (L : MarshalLib) (fail : FaultPt → Bool)
    (src d : String) (isdir : String → Bool) (py3 legacy : Bool)
    (fs : FS) (f : String) (b : Bytes) (hf : slotName f)
    (hb : fs (bpO d f) = none)
    (hafter : (safe_replace_snownlp_model L fail src (some d) isdir py3 legacy fs).1 (bpO d f) = some b) :
    fs (tpO d f) = some b := by
  unfold safe_replace_snownlp_model at hafter
  simp only at hafter
  by_cases h1 : (decide (d = "") || !isdir d) = true
  · rw [if_pos h1] at hafter
    simp only at hafter
    rw [hb] at hafter
    cases hafter
  · rw [if_neg h1] at hafter
    by_cases h2 : fs src = none
    · rw [if_pos h2] at hafter
      simp only at hafter
      rw [hb] at hafter
      cases hafter
    · rw [if_neg h2] at hafter
      cases hv : validate_marshal_model_file L fs src with
      | some e =>
        rw [hv] at hafter
        simp only at hafter
        rw [hb] at hafter
        cases hafter
      | none =>
        rw [hv] at hafter
        simp only at hafter
        have hcases := deployLoop_bp_cases L fail d src
          (get_effective_model_filenames py3 legacy) fs [] f
          (get_effective_slotNames py3 legacy) hf (get_effective_nodup py3 legacy) hb
        rcases hres : deployLoop L fail d src (get_effective_model_filenames py3 legacy) fs []
          with ⟨fs1, rep, opt⟩
        rw [hres] at hcases hafter
        simp only at hcases hafter
        cases opt with
        | none =>
          simp only at hafter
          rcases hcases with hc | hc
          · rw [hafter] at hc
            cases hc
          · rw [hafter] at hc
            exact hc.symm
        | some e =>
          simp only at hafter
          rw [rfb_fs] at hafter
          have hrw : (restoreLoop d restoreNames fs1 []).1 (bpO d f) = fs1 (bpO d f) :=
            restoreLoop_bp_frame d restoreNames fs1 [] (pjoin d f) restore_slotNames
          rw [hrw] at hafter
          rcases hcases with hc | hc
          · rw [hafter] at hc
            cases hc
          · rw [hafter] at hc
            exact hc.symm

/-- C7: `restore_from_backup` overwrites each slot whose permanent backup
`<slot>.backup_gui` exists with the backup content (and reports
success), and when no permanent backup exists for any slot it fails with
the no-backup-found error and leaves the filesystem untouched. -/
theorem restore_from_backup_spec (fs : FS) (d : String) :
    (∀ f, slotName f → ∀ b, fs (bpO d f) = some b →
      (restore_from_backup fs d).1 (tpO d f) = some b ∧
      (restore_from_backup fs d).2.success = true) ∧
    ((∀ f, slotName f → fs (bpO d f) = none) →
      (restore_from_backup fs d).1 = fs ∧
      (restore_from_backup fs d).2.success = false ∧
      (restore_from_backup fs d).2.error = some "no .backup_gui files found") := by
  constructor
  · intro f hf b hb
    constructor
    · rw [rfb_fs]
      exact restoreLoop_sets d restoreNames fs [] f b restore_slotNames hf
        (slotName_mem_restoreNames hf) restoreNames_nodup hb
    · unfold restore_from_backup
      simp only
      have hmem : f ∈ (restoreLoop d restoreNames fs []).2 := by
        rw [rfb_rep]
        apply List.mem_filter.mpr
        refine ⟨slotName_mem_restoreNames hf, ?_⟩
        rw [hb]
        rfl
      rw [if_neg (List.ne_nil_of_mem hmem)]
  · intro hall
    have hid : restoreLoop d restoreNames fs [] = (fs, []) :=
      restoreLoop_id d restoreNames fs []
        (fun g hg => hall g (restore_slotNames g hg))
    unfold restore_from_backup
    rw [hid]
    simp only
    exact ⟨rfl, rfl, rfl⟩

/-- Witness for the C7 theorem: a world with a backup only for the
py3 slot is restored from it and reports success. -/
theorem restore_from_backup_spec_witness :
    (restore_from_backup (upd emptyFS (bpO "sd" "sentiment.marshal.3") (some [7])) "sd").1
        (tpO "sd" "sentiment.marshal.3") = some [7] ∧
    (restore_from_backup (upd emptyFS (bpO "sd" "sentiment.marshal.3") (some [7])) "sd").2.success
        = true :=
  (restore_from_backup_spec (upd emptyFS (bpO "sd" "sentiment.marshal.3") (some [7])) "sd").1
    "sentiment.marshal.3" (Or.inl rfl) [7] (by decide)

/-- C8: a deploy whose source file is missing or structurally invalid
returns a failure value (never an exception — the embedding is total)
before touching any path: the filesystem is unchanged, no slot is
committed, and the error names the failure. -/
theorem safe_replace_invalid_source (L : MarshalLib) (fail : FaultPt → Bool)
    (src d : String) (isdir : String → Bool) (py3 legacy : Bool) (fs : FS)
    (hd : d ≠ "") (hisdir : isdir d = true)
    (hbad : fs src = none ∨ ∃ e, validate_marshal_model_file L fs src = some e) :
    (safe_replace_snownlp_model L fail src (some d) isdir py3 legacy fs).1 = fs ∧
    (safe_replace_snownlp_model L fail src (some d) isdir py3 legacy fs).2.success = false ∧
    (safe_replace_snownlp_model L fail src (some d) isdir py3 legacy fs).2.replaced_files = [] ∧
    ((safe_replace_snownlp_model L fail src (some d) isdir py3 legacy fs).2.error =
        some ("source model file not found: " ++ src) ∨
      ∃ e, (safe_replace_snownlp_model L fail src (some d) isdir py3 legacy fs).2.error =
        some ("invalid source model file: " ++ e)) := by
  unfold safe_replace_snownlp_model
  simp only
  rw [if_neg (by simp [hd, hisdir])]
  rcases hbad with hmiss | ⟨e, hval⟩
  · rw [if_pos hmiss]
    exact ⟨rfl, rfl, rfl, Or.inl rfl⟩
  · by_cases hmiss : fs src = none
    · rw [if_pos hmiss]
      exact ⟨rfl, rfl, rfl, Or.inl rfl⟩
    · rw [if_neg hmiss, hval]
      exact ⟨rfl, rfl, rfl, Or.inr ⟨e, rfl⟩⟩

/-- Witness for the C8 theorem: deploying a missing source touches
nothing and fails as a value. -/
theorem safe_replace_invalid_source_witness :
    (safe_replace_snownlp_model LW noFaults "nosrc" (some "sd") anyDir true false emptyFS).1
        = emptyFS ∧
    (safe_replace_snownlp_model LW noFaults "nosrc" (some "sd") anyDir true false emptyFS).2.success
        = false ∧
    (safe_replace_snownlp_model LW noFaults "nosrc" (some "sd") anyDir true false
        emptyFS).2.replaced_files = [] ∧
    ((safe_replace_snownlp_model LW noFaults "nosrc" (some "sd") anyDir true false
          emptyFS).2.error = some ("source model file not found: " ++ "nosrc") ∨
      ∃ e, (safe_replace_snownlp_model LW noFaults "nosrc" (some "sd") anyDir true false
          emptyFS).2.error = some ("invalid source model file: " ++ e)) :=
  safe_replace_invalid_source LW noFaults "nosrc" "sd" anyDir true false emptyFS
    (by decide) rfl (Or.inl rfl)

/-- C3: the permanent backup of a slot is created only from an existing
target with no backup yet (and then holds exactly the pre-call target
content), an existing backup is never overwritten by any deploy, and
after a deploy that committed the slot from a backup-less state any
number of further deploys still leave the backup equal to the target
content from before the first deploy. -/
theorem backup_created_once (L : MarshalLib) (fail : FaultPt → Bool)
    (src d : String) (isdir : String → Bool) (py3 legacy : Bool)
    (fs : FS) (f : String) (hf : slotName f) :
    (∀ b, fs (bpO d f) = some b →
      (safe_replace_snownlp_model L fail src (some d) isdir py3 legacy fs).1 (bpO d f) = some b) ∧
    (∀ b, fs (bpO d f) = none →
      (safe_replace_snownlp_model L fail src (some d) isdir py3 legacy fs).1 (bpO d f) = some b →
      fs (tpO d f) = some b) ∧
    (∀ c0, fs (tpO d f) = some c0 → fs (bpO d f) = none →
      f ∈ (safe_replace_snownlp_model L fail src (some d) isdir py3 legacy fs).2.replaced_files →
      (safe_replace_snownlp_model L fail src (some d) isdir py3 legacy fs).1 (bpO d f) = some c0 ∧
      ∀ (L2 : MarshalLib) (fail2 : FaultPt → Bool) (src2 : String) (sd2 : Option String)
        (isdir2 : String → Bool) (py32 legacy2 : Bool),
        (safe_replace_snownlp_model L2 fail2 src2 sd2 isdir2 py32 legacy2
          (safe_replace_snownlp_model L fail src (some d) isdir py3 legacy fs).1).1 (bpO d f)
          = some c0) := by
  refine ⟨?_, ?_, ?_⟩
  · intro b hb
    exact safe_replace_bp_preserve L fail src (some d) isdir py3 legacy fs (pjoin d f) b hb
  · intro b hb hafter
    exact safe_replace_bp_create_source L fail src d isdir py3 legacy fs f b hf hb hafter
  · intro c0 ht hb hmem
    have hfirst : (safe_replace_snownlp_model L fail src (some d) isdir py3 legacy fs).1 (bpO d f)
        = some c0 := by
      unfold safe_replace_snownlp_model at hmem ⊢
      simp only at hmem ⊢
      by_cases h1 : (decide (d = "") || !isdir d) = true
      · rw [if_pos h1] at hmem
        cases hmem
      · rw [if_neg h1] at hmem ⊢
        by_cases h2 : fs src = none
        · rw [if_pos h2] at hmem
          cases hmem
        · rw [if_neg h2] at hmem ⊢
          cases hv : validate_marshal_model_file L fs src with
          | some e =>
            rw [hv] at hmem
            simp only at hmem
            cases hmem
          | none =>
            rw [hv] at hmem
            simp only at hmem ⊢
            have hcommit := deployLoop_commit_backup L fail d src
              (get_effective_model_filenames py3 legacy) fs [] f c0
              (get_effective_slotNames py3 legacy) hf (by simp) hb ht
            rcases hres : deployLoop L fail d src (get_effective_model_filenames py3 legacy) fs []
              with ⟨fs1, rep, opt⟩
            try rw [hres] at hcommit
            try rw [hres] at hmem
            try rw [hres]
            simp only at hcommit hmem ⊢
            cases opt with
            | none =>
              simp only at hmem ⊢
              exact hcommit hmem
            | some e =>
              simp only at hmem ⊢
              rw [rfb_fs]
              have hrw : (restoreLoop d restoreNames fs1 []).1 (bpO d f) = fs1 (bpO d f) :=
                restoreLoop_bp_frame d restoreNames fs1 [] (pjoin d f) restore_slotNames
              rw [hrw]
              exact hcommit hmem
    refine ⟨hfirst, ?_⟩
    intro L2 fail2 src2 sd2 isdir2 py32 legacy2
    exact safe_replace_bp_preserve L2 fail2 src2 sd2 isdir2 py32 legacy2 _ (pjoin d f) c0 hfirst

/-- Witness for the C3 theorem: a first deploy to a live slot creates the
backup with the pre-call content, and a second deploy keeps it. -/
theorem backup_created_once_witness :
    (safe_replace_snownlp_model LW noFaults "m" (some "sd") anyDir true false
        (upd (upd emptyFS "m" (some [0])) (tpO "sd" "sentiment.marshal.3") (some [1]))).1
        (bpO "sd" "sentiment.marshal.3") = some [1] ∧
    (safe_replace_snownlp_model LW noFaults "m" (some "sd") anyDir true false
        (safe_replace_snownlp_model LW noFaults "m" (some "sd") anyDir true false
          (upd (upd emptyFS "m" (some [0])) (tpO "sd" "sentiment.marshal.3") (some [1]))).1).1
        (bpO "sd" "sentiment.marshal.3") = some [1] := by
  have h := (backup_created_once LW noFaults "m" "sd" anyDir true false
    (upd (upd emptyFS "m" (some [0])) (tpO "sd" "sentiment.marshal.3") (some [1]))
    "sentiment.marshal.3" (Or.inl rfl)).2.2 [1] (by decide) (by decide) (by decide)
  exact ⟨h.1, h.2 LW noFaults "m" (some "sd") anyDir true false⟩

/-- C9: a fault-free deploy of a valid source over a slot whose target
file does not exist succeeds for that slot — the target is created with
the source content — but no permanent backup is created for it. -/
theorem deploy_missing_target (L : MarshalLib) (fail : FaultPt → Bool)
    (src d : String) (isdir : String → Bool) (py3 legacy : Bool) (fs : FS)
    (fname : String) (cs : Bytes)
    (hd : d ≠ "") (hisdir : isdir d = true)
    (hff : ∀ g ∈ get_effective_model_filenames py3 legacy,
      fail (FaultPt.backupCopy g) = false ∧ fail (FaultPt.stageCopy g) = false ∧
      fail (FaultPt.commitRename g) = false)
    (hst : ∀ g ∈ get_effective_model_filenames py3 legacy, src ≠ tmpO d g)
    (hsrc : fs src = some cs) (hv : contentCheck L cs = none)
    (hmem : fname ∈ get_effective_model_filenames py3 legacy)
    (ht : fs (tpO d fname) = none) :
    (safe_replace_snownlp_model L fail src (some d) isdir py3 legacy fs).2.success = true ∧
    (safe_replace_snownlp_model L fail src (some d) isdir py3 legacy fs).2.replaced_files =
      get_effective_model_filenames py3 legacy ∧
    (safe_replace_snownlp_model L fail src (some d) isdir py3 legacy fs).1 (tpO d fname) = some cs ∧
    (safe_replace_snownlp_model L fail src (some d) isdir py3 legacy fs).1 (bpO d fname) =
      fs (bpO d fname) := by
  have hval : validate_marshal_model_file L fs src = none := by
    unfold validate_marshal_model_file
    rw [hsrc]
    exact hv
  have hrun := safe_replace_run L fail src d isdir py3 legacy fs hd hisdir (by rw [hsrc]; simp) hval
  obtain ⟨fs1, hloop, _, htp⟩ := deployLoop_ok_of L fail d src
    (get_effective_model_filenames py3 legacy) fs [] cs
    (get_effective_slotNames py3 legacy) (get_effective_nodup py3 legacy) hff hst hsrc hv
  have hbp := deployLoop_bp_notarget L fail d src
    (get_effective_model_filenames py3 legacy) fs [] fname
    (get_effective_slotNames py3 legacy)
    (get_effective_slotNames py3 legacy fname hmem) (get_effective_nodup py3 legacy) ht
  rw [hloop] at hbp
  simp only at hbp
  rw [hrun, hloop]
  simp only
  refine ⟨?_, by simp, htp fname hmem, hbp⟩
  have : get_effective_model_filenames py3 legacy ≠ [] := List.ne_nil_of_mem hmem
  simp [List.isEmpty_iff, this]

/-- Witness for the C9 theorem: deploying into an empty py3 slot creates
it with the source content and leaves no backup. -/
theorem deploy_missing_target_witness :
    (safe_replace_snownlp_model LW noFaults "m" (some "sd") anyDir true false
        (upd emptyFS "m" (some [0]))).2.success = true ∧
    (safe_replace_snownlp_model LW noFaults "m" (some "sd") anyDir true false
        (upd emptyFS "m" (some [0]))).2.replaced_files =
      get_effective_model_filenames true false ∧
    (safe_replace_snownlp_model LW noFaults "m" (some "sd") anyDir true false
        (upd emptyFS "m" (some [0]))).1 (tpO "sd" "sentiment.marshal.3") = some [0] ∧
    (safe_replace_snownlp_model LW noFaults "m" (some "sd") anyDir true false
        (upd emptyFS "m" (some [0]))).1 (bpO "sd" "sentiment.marshal.3") =
      (upd emptyFS "m" (some [0])) (bpO "sd" "sentiment.marshal.3") :=
  deploy_missing_target LW noFaults "m" "sd" anyDir true false (upd emptyFS "m" (some [0]))
    "sentiment.marshal.3" [0] (by decide) rfl
    (by intro g hg; exact ⟨rfl, rfl, rfl⟩)
    (by intro g hg; fin_cases hg <;> decide)
    rfl (by decide) (by decide) rfl

/-- C1 (amended): when a deploy invocation fails after committing at
least one slot, it returns a failure value with the partial commit list,
and the rollback restores every committed slot that has a permanent
backup — to the backup content (the content from before the first
deploy); a committed slot whose target existed before the call (backup
created in this invocation) is restored to its pre-call content.  A
committed slot with no permanent backup (its target file did not exist
before the first deploy) is not restored. -/
theorem rollback_on_partial_failure (L : MarshalLib) (fail : FaultPt → Bool)
    (src d : String) (isdir : String → Bool) (py3 legacy : Bool) (fs : FS) (f : String)
    (hfailres : (safe_replace_snownlp_model L fail src (some d) isdir py3 legacy fs).2.success
      = false)
    (hmem : f ∈ (safe_replace_snownlp_model L fail src (some d) isdir py3 legacy fs).2.replaced_files) :
    (safe_replace_snownlp_model L fail src (some d) isdir py3 legacy fs).2.error ≠ none ∧
    (∀ b, fs (bpO d f) = some b →
      (safe_replace_snownlp_model L fail src (some d) isdir py3 legacy fs).1 (tpO d f) = some b) ∧
    (∀ c, fs (bpO d f) = none → fs (tpO d f) = some c →
      (safe_replace_snownlp_model L fail src (some d) isdir py3 legacy fs).1 (tpO d f) = some c) := by
  unfold safe_replace_snownlp_model at hfailres hmem ⊢
  simp only at hfailres hmem ⊢
  by_cases h1 : (decide (d = "") || !isdir d) = true
  · rw [if_pos h1] at hmem
    cases hmem
  · rw [if_neg h1] at hfailres hmem ⊢
    by_cases h2 : fs src = none
    · rw [if_pos h2] at hmem
      cases hmem
    · rw [if_neg h2] at hfailres hmem ⊢
      cases hv : validate_marshal_model_file L fs src with
      | some e =>
        try rw [hv] at hmem
        simp only at hmem
        cases hmem
      | none =>
        try rw [hv] at hfailres
        try rw [hv] at hmem
        try rw [hv]
        try simp only at hfailres
        try simp only at hmem
        try simp only
        rcases hres : deployLoop L fail d src (get_effective_model_filenames py3 legacy) fs []
          with ⟨fs1, rep, opt⟩
        try rw [hres] at hfailres
        try rw [hres] at hmem
        try rw [hres]
        try simp only at hfailres
        try simp only at hmem
        try simp only
        have hslot : slotName f := by
          have hsub := deployLoop_rep_sub L fail d src
            (get_effective_model_filenames py3 legacy) fs [] f
          rw [hres] at hsub
          simp only at hsub
          cases opt with
          | none =>
            simp only at hmem
            rcases hsub hmem with h | h
            · cases h
            · exact get_effective_slotNames py3 legacy f h
          | some e =>
            simp only at hmem
            rcases hsub hmem with h | h
            · cases h
            · exact get_effective_slotNames py3 legacy f h
        cases opt with
        | none =>
          try simp only at hfailres
          try simp only at hmem
          have hne : rep ≠ [] := List.ne_nil_of_mem hmem
          simp [List.isEmpty_iff] at hfailres
          exact absurd hfailres hne
        | some e =>
          simp only at hfailres hmem ⊢
          have hmemrep : f ∈ (deployLoop L fail d src
              (get_effective_model_filenames py3 legacy) fs []).2.1 := by
            rw [hres]
            exact hmem
          refine ⟨by simp, ?_, ?_⟩
          · intro b hb
            have hpres := deployLoop_bp_preserve L fail d src
              (get_effective_model_filenames py3 legacy) fs [] (pjoin d f) b
              (get_effective_slotNames py3 legacy) hb
            rw [hres] at hpres
            simp only at hpres
            rw [rfb_fs]
            exact restoreLoop_sets d restoreNames fs1 [] f b restore_slotNames hslot
              (slotName_mem_restoreNames hslot) restoreNames_nodup hpres
          · intro c hb ht
            have hcommit := deployLoop_commit_backup L fail d src
              (get_effective_model_filenames py3 legacy) fs [] f c
              (get_effective_slotNames py3 legacy) hslot (by simp) hb ht hmemrep
            rw [hres] at hcommit
            simp only at hcommit
            rw [rfb_fs]
            exact restoreLoop_sets d restoreNames fs1 [] f c restore_slotNames hslot
              (slotName_mem_restoreNames hslot) restoreNames_nodup hcommit

/-- Witness for the amended C1 theorem: a deploy to both slots with a
rename fault on the legacy slot fails after committing the py3 slot, and
the rollback restores the py3 slot to its pre-call content. -/
theorem rollback_on_partial_failure_witness :
    (safe_replace_snownlp_model LW failLegacyRename "m" (some "sd") anyDir true true
        (upd (upd (upd emptyFS "m" (some [0])) (tpO "sd" "sentiment.marshal.3") (some [2]))
          (tpO "sd" "sentiment.marshal") (some [1]))).2.success = false ∧
    (safe_replace_snownlp_model LW failLegacyRename "m" (some "sd") anyDir true true
        (upd (upd (upd emptyFS "m" (some [0])) (tpO "sd" "sentiment.marshal.3") (some [2]))
          (tpO "sd" "sentiment.marshal") (some [1]))).1
        (tpO "sd" "sentiment.marshal.3") = some [2] := by
  refine ⟨by decide, ?_⟩
  have h := rollback_on_partial_failure LW failLegacyRename "m" "sd" anyDir true true
    (upd (upd (upd emptyFS "m" (some [0])) (tpO "sd" "sentiment.marshal.3") (some [2]))
      (tpO "sd" "sentiment.marshal") (some [1])) "sentiment.marshal.3"
    (by decide) (by decide)
  exact h.2.2 [2] (by decide) (by decide)

/-- Counterexample to C1 as stated: in a two-slot deploy where the py3
slot did not exist before the call, the py3 slot is committed, the
legacy slot then fails its rename, the call returns failure — but the
committed py3 slot is NOT restored to its pre-call (absent) state: it
keeps the new artifact, because no permanent backup exists for it. -/
theorem rollback_on_partial_failure_counterexample :
    (safe_replace_snownlp_model LW failLegacyRename "m" (some "sd") anyDir true true
        (upd (upd emptyFS "m" (some [0])) (tpO "sd" "sentiment.marshal") (some [1]))).2.success
      = false ∧
    "sentiment.marshal.3" ∈ (safe_replace_snownlp_model LW failLegacyRename "m" (some "sd")
        anyDir true true
        (upd (upd emptyFS "m" (some [0])) (tpO "sd" "sentiment.marshal") (some [1]))).2.replaced_files ∧
    (upd (upd emptyFS "m" (some [0])) (tpO "sd" "sentiment.marshal") (some [1]))
        (tpO "sd" "sentiment.marshal.3") = none ∧
    (safe_replace_snownlp_model LW failLegacyRename "m" (some "sd") anyDir true true
        (upd (upd emptyFS "m" (some [0])) (tpO "sd" "sentiment.marshal") (some [1]))).1
        (tpO "sd" "sentiment.marshal.3") = some [0] := by
  refine ⟨by decide, by decide, by decide, by decide⟩

/-- C10: updating a model id that is not in the catalog is a silent
no-op: the state (in-memory map and persisted document alike) is
returned unchanged, and no error is produced (the function is total and
returns only the state, as the python method returns `None`). -/
theorem update_model_missing_id (st : MMState) (model_id : String)
    (updates : MMEntry → MMEntry) (h : st.models.lookup model_id = none) :
    update_model st model_id updates = st := by
  unfold update_model
  rw [h]
  simp

/-- Witness for the C10 theorem. -/
theorem update_model_missing_id_witness :
    update_model ⟨[("1", ⟨"p", []⟩)], [("1", ⟨"p", []⟩)]⟩ "2" (fun e => e) =
      ⟨[("1", ⟨"p", []⟩)], [("1", ⟨"p", []⟩)]⟩ :=
  update_model_missing_id ⟨[("1", ⟨"p", []⟩)], [("1", ⟨"p", []⟩)]⟩ "2" (fun e => e) (by decide)

/-- Counterexample to C6 as stated: `get_model_list` does not re-read the
persisted map — it filters the in-memory map.  In a state where the two
differ (reachable: `save_models` swallows write errors, and the document
can be edited externally after construction), the returned list is not
the existing-path filter of the persisted document. -/
theorem get_model_list_counterexample :
    (get_model_list (fun _ => true) ⟨[("1", ⟨"p1", []⟩)], []⟩).2 ≠
      (List.filter (fun p => (fun _ => true) p.2.path) ([] : List (String × MMEntry))) := by
  decide

/-- C6 (amended): `get_model_list` filters the in-memory map down to the
entries whose backing path exists and returns exactly those; when at
least one entry was pruned (the lengths differ) it replaces the
in-memory map with the filtered map and re-persists it, so the persisted
document no longer contains the pruned entries; when nothing was pruned
the state is returned unchanged and nothing is re-persisted. -/
theorem get_model_list_spec (pathExists : String → Bool) (st : MMState) :
    (get_model_list pathExists st).2 = st.models.filter (fun p => pathExists p.2.path) ∧
    ((get_model_list pathExists st).2.length ≠ st.models.length →
      (get_model_list pathExists st).1.models =
        st.models.filter (fun p => pathExists p.2.path) ∧
      (get_model_list pathExists st).1.persisted =
        st.models.filter (fun p => pathExists p.2.path)) ∧
    ((get_model_list pathExists st).2.length = st.models.length →
      (get_model_list pathExists st).1 = st) := by
  unfold get_model_list
  by_cases h : (st.models.filter (fun p => pathExists p.2.path)).length = st.models.length
  · rw [if_neg (by simpa using h)]
    exact ⟨rfl, fun hne => absurd h hne, fun _ => rfl⟩
  · rw [if_pos (by simpa using h)]
    refine ⟨rfl, fun _ => ⟨rfl, rfl⟩, fun heq => absurd heq h⟩

/-- Witness for the amended C6 theorem: pruning a vanished entry rewrites
the map and the persisted document. -/
theorem get_model_list_spec_witness :
    (get_model_list (fun p => p == "a")
        ⟨[("1", ⟨"a", []⟩), ("2", ⟨"b", []⟩)], [("1", ⟨"a", []⟩), ("2", ⟨"b", []⟩)]⟩).2 =
      List.filter (fun p => (fun q => q == "a") p.2.path)
        [("1", (⟨"a", []⟩ : MMEntry)), ("2", ⟨"b", []⟩)] ∧
    (get_model_list (fun p => p == "a")
        ⟨[("1", ⟨"a", []⟩), ("2", ⟨"b", []⟩)], [("1", ⟨"a", []⟩), ("2", ⟨"b", []⟩)]⟩).1.persisted =
      List.filter (fun p => (fun q => q == "a") p.2.path)
        [("1", (⟨"a", []⟩ : MMEntry)), ("2", ⟨"b", []⟩)] := by
  have h := get_model_list_spec (fun p => p == "a")
    ⟨[("1", ⟨"a", []⟩), ("2", ⟨"b", []⟩)], [("1", ⟨"a", []⟩), ("2", ⟨"b", []⟩)]⟩
  exact ⟨h.1, (h.2.1 (by decide)).2⟩

theorem insertDesc_perm (x : CompResult) :
    ∀ l : List CompResult, List.Perm (insertDesc x l) (x :: l) := by
  intro l
  induction l with
  | nil => exact List.Perm.refl _
  | cons y ys ih =>
    unfold insertDesc
    by_cases h : y.accuracy ≤ x.accuracy
    · rw [if_pos h]
    · rw [if_neg h]
      exact List.Perm.trans (List.Perm.cons y ih) (List.Perm.swap x y ys)

theorem sortByAccuracyDesc_perm :
    ∀ l : List CompResult, List.Perm (sortByAccuracyDesc l) l := by
  intro l
  induction l with
  | nil => exact List.Perm.refl _
  | cons x xs ih =>
    unfold sortByAccuracyDesc
    exact List.Perm.trans (insertDesc_perm x _) (List.Perm.cons x ih)

theorem insertDesc_sorted (x : CompResult) :
    ∀ l : List CompResult,
      List.Pairwise (fun a b => b.accuracy ≤ a.accuracy) l →
      List.Pairwise (fun a b => b.accuracy ≤ a.accuracy) (insertDesc x l) := by
  intro l
  induction l with
  | nil => intro _; exact List.pairwise_singleton _ x
  | cons y ys ih =>
    intro hp
    rcases List.pairwise_cons.mp hp with ⟨hy, hys⟩
    unfold insertDesc
    by_cases h : y.accuracy ≤ x.accuracy
    · rw [if_pos h]
      apply List.pairwise_cons.mpr
      refine ⟨?_, hp⟩
      intro z hz
      rcases List.mem_cons.mp hz with hz' | hz'
      · rw [hz']; exact h
      · exact le_trans (hy z hz') h
    · rw [if_neg h]
      apply List.pairwise_cons.mpr
      refine ⟨?_, ih hys⟩
      intro z hz
      have hz2 := (insertDesc_perm x ys).mem_iff.mp hz
      rcases List.mem_cons.mp hz2 with hz' | hz'
      · rw [hz']
        exact le_of_lt (lt_of_not_le h)
      · exact hy z hz'

theorem sortByAccuracyDesc_sorted (l : List CompResult) :
    List.Pairwise (fun a b => b.accuracy ≤ a.accuracy) (sortByAccuracyDesc l) := by
  induction l with
  | nil => exact List.Pairwise.nil
  | cons x xs ih => exact insertDesc_sorted x _ ih

theorem insertDesc_filter (x : CompResult) (q : ℚ) :
    ∀ l : List CompResult,
      (insertDesc x l).filter (fun e => e.accuracy == q) =
        if x.accuracy == q then x :: l.filter (fun e => e.accuracy == q)
        else l.filter (fun e => e.accuracy == q) := by
  intro l
  induction l with
  | nil =>
    unfold insertDesc
    rw [List.filter_cons]
  | cons y ys ih =>
    unfold insertDesc
    by_cases h : y.accuracy ≤ x.accuracy
    · rw [if_pos h]
      rw [List.filter_cons]
    · rw [if_neg h]
      rw [List.filter_cons, ih]
      by_cases hy : (y.accuracy == q) = true
      · have hx : ¬ ((x.accuracy == q) = true) := by
          intro hx
          exact h (le_of_eq ((eq_of_beq hy).trans (eq_of_beq hx).symm))
        simp [hy, hx, List.filter_cons]
      · simp [hy, List.filter_cons]

theorem sortByAccuracyDesc_filter (q : ℚ) :
    ∀ l : List CompResult,
      (sortByAccuracyDesc l).filter (fun e => e.accuracy == q) =
        l.filter (fun e => e.accuracy == q) := by
  intro l
  induction l with
  | nil => rfl
  | cons x xs ih =>
    unfold sortByAccuracyDesc
    rw [insertDesc_filter]
    by_cases hx : x.accuracy == q
    · rw [if_pos hx, ih]
      simp [List.filter, hx]
    · rw [if_neg hx, ih]
      simp [List.filter, hx]

/-- C5: the comparison worker ranks the collected results by sorting
descending on accuracy with a stable tie-break (the ranked list is a
permutation of the input, pairwise descending, and elements of any equal
accuracy keep their input order), and reports the first entry of the
ranked list as the recommended model; in particular inputs `[A, B, C]`
with accuracies `A = B = 4/5 > C = 3/5` rank as `[A, B, C]` with `A`
recommended and `C` last. -/
theorem compare_ranking_spec (l : List CompResult) :
    List.Perm (compare_models_rank l) l ∧
    List.Pairwise (fun a b => b.accuracy ≤ a.accuracy) (compare_models_rank l) ∧
    (∀ q : ℚ, (compare_models_rank l).filter (fun e => e.accuracy == q) =
      l.filter (fun e => e.accuracy == q)) ∧
    compare_models_best l = (compare_models_rank l).head? ∧
    compare_models_rank [⟨"A", 4/5, 8, 10⟩, ⟨"B", 4/5, 8, 10⟩, ⟨"C", 3/5, 6, 10⟩] =
      [⟨"A", 4/5, 8, 10⟩, ⟨"B", 4/5, 8, 10⟩, ⟨"C", 3/5, 6, 10⟩] ∧
    compare_models_best [⟨"A", 4/5, 8, 10⟩, ⟨"B", 4/5, 8, 10⟩, ⟨"C", 3/5, 6, 10⟩] =
      some ⟨"A", 4/5, 8, 10⟩ := by
  refine ⟨sortByAccuracyDesc_perm l, sortByAccuracyDesc_sorted l,
    fun q => sortByAccuracyDesc_filter q l, rfl, ?_, ?_⟩
  · norm_num [compare_models_rank, sortByAccuracyDesc, insertDesc]
  · norm_num [compare_models_best, compare_models_rank, sortByAccuracyDesc, insertDesc]

theorem copyTo_frame (m : String) (f : FS) (t q : String) (h : q ≠ t) :
    copyTo m f t q = f q := by
  unfold copyTo
  cases f m with
  | none => rfl
  | some c => exact upd_ne _ _ _ _ h

theorem foldl_copyTo_frame (m : String) :
    ∀ (ts : List String) (f : FS) (q : String), (∀ t ∈ ts, q ≠ t) →
      (ts.foldl (copyTo m) f) q = f q := by
  intro ts
  induction ts with
  | nil => intro f q _; rfl
  | cons t rest ih =>
    intro f q hq
    rw [List.foldl_cons]
    rw [ih (copyTo m f t) q (fun t' ht' => hq t' (by simp [ht']))]
    exact copyTo_frame m f t q (hq t (by simp))

/-- `temp_replace_model` writes only the live slot paths. -/
theorem temp_replace_frame (fs : FS) (m q : String)
    (h1 : q ≠ pjoin sentDir "sentiment.marshal")
    (h2 : q ≠ pjoin sentDir "sentiment.marshal.3") :
    (temp_replace_model fs m).1 q = fs q := by
  unfold temp_replace_model
  by_cases h0 : fs m = none
  · rw [if_pos h0]
  · rw [if_neg h0]
    simp only
    by_cases he : ((liveSlots.map (pjoin sentDir)).filter (fun p => (fs p).isSome)).isEmpty
    · rw [if_pos he]
    · rw [if_neg he]
      simp only
      apply foldl_copyTo_frame
      intro t ht
      have hmap := (List.mem_filter.mp ht).1
      simp only [liveSlots, List.map_cons, List.map_nil, List.mem_cons,
        List.not_mem_nil, or_false] at hmap
      rcases hmap with h | h
      · rw [h]; exact h1
      · rw [h]; exact h2

/-- A live slot that does not exist is never written by
`temp_replace_model` (it is filtered out of the targets). -/
theorem temp_replace_missing (fs : FS) (m p : String) (hp : fs p = none) :
    (temp_replace_model fs m).1 p = fs p := by
  unfold temp_replace_model
  by_cases h0 : fs m = none
  · rw [if_pos h0]
  · rw [if_neg h0]
    simp only
    by_cases he : ((liveSlots.map (pjoin sentDir)).filter (fun p => (fs p).isSome)).isEmpty
    · rw [if_pos he]
    · rw [if_neg he]
      simp only
      apply foldl_copyTo_frame
      intro t ht
      have hs := (List.mem_filter.mp ht).2
      intro hpt
      rw [← hpt, hp] at hs
      cases hs

theorem restore_two (f : FS) (c1 c2 : Bytes)
    (h1 : f (pjoin sentDir "sentiment.marshal" ++ ".temp_backup") = some c1)
    (h2 : f (pjoin sentDir "sentiment.marshal.3" ++ ".temp_backup") = some c2) :
    restore_model f [pjoin sentDir "sentiment.marshal" ++ ".temp_backup",
        pjoin sentDir "sentiment.marshal.3" ++ ".temp_backup"] =
      upd (upd (upd (upd f (pjoin sentDir "sentiment.marshal") (some c1))
        (pjoin sentDir "sentiment.marshal" ++ ".temp_backup") none)
        (pjoin sentDir "sentiment.marshal.3") (some c2))
        (pjoin sentDir "sentiment.marshal.3" ++ ".temp_backup") none := by
  unfold restore_model
  simp only [List.foldl_cons, List.foldl_nil]
  rw [h1]
  simp only
  have hrep1 : pyReplace (pjoin sentDir "sentiment.marshal" ++ ".temp_backup") ".temp_backup" ""
      = pjoin sentDir "sentiment.marshal" := by decide
  rw [hrep1]
  have hread : (upd (upd f (pjoin sentDir "sentiment.marshal") (some c1))
      (pjoin sentDir "sentiment.marshal" ++ ".temp_backup") none)
      (pjoin sentDir "sentiment.marshal.3" ++ ".temp_backup") =
      f (pjoin sentDir "sentiment.marshal.3" ++ ".temp_backup") := by
    simp only [upd]
    rw [if_neg (by decide), if_neg (by decide)]
  rw [hread, h2]
  simp only
  have hrep2 : pyReplace (pjoin sentDir "sentiment.marshal.3" ++ ".temp_backup") ".temp_backup" ""
      = pjoin sentDir "sentiment.marshal.3" := by decide
  rw [hrep2]

theorem restore_only1 (f : FS) (c1 : Bytes)
    (h1 : f (pjoin sentDir "sentiment.marshal" ++ ".temp_backup") = some c1) :
    restore_model f [pjoin sentDir "sentiment.marshal" ++ ".temp_backup"] =
      upd (upd f (pjoin sentDir "sentiment.marshal") (some c1))
        (pjoin sentDir "sentiment.marshal" ++ ".temp_backup") none := by
  unfold restore_model
  simp only [List.foldl_cons, List.foldl_nil]
  rw [h1]
  simp only
  have hrep1 : pyReplace (pjoin sentDir "sentiment.marshal" ++ ".temp_backup") ".temp_backup" ""
      = pjoin sentDir "sentiment.marshal" := by decide
  rw [hrep1]

theorem restore_only2 (f : FS) (c2 : Bytes)
    (h2 : f (pjoin sentDir "sentiment.marshal.3" ++ ".temp_backup") = some c2) :
    restore_model f [pjoin sentDir "sentiment.marshal.3" ++ ".temp_backup"] =
      upd (upd f (pjoin sentDir "sentiment.marshal.3") (some c2))
        (pjoin sentDir "sentiment.marshal.3" ++ ".temp_backup") none := by
  unfold restore_model
  simp only [List.foldl_cons, List.foldl_nil]
  rw [h2]
  simp only
  have hrep2 : pyReplace (pjoin sentDir "sentiment.marshal.3" ++ ".temp_backup") ".temp_backup" ""
      = pjoin sentDir "sentiment.marshal.3" := by decide
  rw [hrep2]

/-- C4: one sandboxed evaluation session (`test_model_worker`), whether
the benchmark returns or raises, runs the restore step on the guaranteed
`finally` path: every live slot ends with exactly its pre-call content,
and the temp backups created for existing slots are deleted. -/
theorem test_model_worker_restores (fs : FS) (model_path : String) (benchRaises : Bool) :
    (test_model_worker fs model_path benchRaises).1 (pjoin sentDir "sentiment.marshal") =
      fs (pjoin sentDir "sentiment.marshal") ∧
    (test_model_worker fs model_path benchRaises).1 (pjoin sentDir "sentiment.marshal.3") =
      fs (pjoin sentDir "sentiment.marshal.3") ∧
    ((fs (pjoin sentDir "sentiment.marshal")).isSome →
      (test_model_worker fs model_path benchRaises).1
        (pjoin sentDir "sentiment.marshal" ++ ".temp_backup") = none) ∧
    ((fs (pjoin sentDir "sentiment.marshal.3")).isSome →
      (test_model_worker fs model_path benchRaises).1
        (pjoin sentDir "sentiment.marshal.3" ++ ".temp_backup") = none) := by
  cases hc1 : fs (pjoin sentDir "sentiment.marshal") with
  | some c1 =>
    cases hc2 : fs (pjoin sentDir "sentiment.marshal.3") with
    | some c2 =>
      have hbk : backup_current_model fs =
          (upd (upd fs (pjoin sentDir "sentiment.marshal" ++ ".temp_backup") (some c1))
            (pjoin sentDir "sentiment.marshal.3" ++ ".temp_backup") (some c2),
           [pjoin sentDir "sentiment.marshal" ++ ".temp_backup",
            pjoin sentDir "sentiment.marshal.3" ++ ".temp_backup"]) := by
        unfold backup_current_model liveSlots
        simp only [List.foldl_cons, List.foldl_nil]
        rw [hc1]
        simp only [Option.isSome_some, if_true]
        rw [upd_ne _ _ _ _ (by decide), hc2]
        simp only [Option.isSome_some, if_true]
        simp
      have hb1v : (backup_current_model fs).1
          (pjoin sentDir "sentiment.marshal" ++ ".temp_backup") = some c1 := by
        rw [hbk]
        simp only
        rw [upd_ne _ _ _ _ (by decide), upd_same]
      have hb2v : (backup_current_model fs).1
          (pjoin sentDir "sentiment.marshal.3" ++ ".temp_backup") = some c2 := by
        rw [hbk]
        simp only
        rw [upd_same]
      have hbk2 : (backup_current_model fs).2 =
          [pjoin sentDir "sentiment.marshal" ++ ".temp_backup",
           pjoin sentDir "sentiment.marshal.3" ++ ".temp_backup"] := by
        rw [hbk]
      have htr1 : (temp_replace_model (backup_current_model fs).1 model_path).1
          (pjoin sentDir "sentiment.marshal" ++ ".temp_backup") = some c1 := by
        rw [temp_replace_frame _ _ _ (by decide) (by decide)]
        exact hb1v
      have htr2 : (temp_replace_model (backup_current_model fs).1 model_path).1
          (pjoin sentDir "sentiment.marshal.3" ++ ".temp_backup") = some c2 := by
        rw [temp_replace_frame _ _ _ (by decide) (by decide)]
        exact hb2v
      unfold test_model_worker
      simp only
      rw [hbk2]
      simp only [List.isEmpty_cons, Bool.false_eq_true, if_false]
      rw [restore_two _ c1 c2 htr1 htr2]
      refine ⟨?_, ?_, fun _ => ?_, fun _ => ?_⟩
      · rw [upd_ne _ _ _ _ (by decide), upd_ne _ _ _ _ (by decide),
          upd_ne _ _ _ _ (by decide), upd_same]
      · rw [upd_ne _ _ _ _ (by decide), upd_same]
      · rw [upd_ne _ _ _ _ (by decide), upd_ne _ _ _ _ (by decide), upd_same]
      · rw [upd_same]
    | none =>
      have hbk : backup_current_model fs =
          (upd fs (pjoin sentDir "sentiment.marshal" ++ ".temp_backup") (some c1),
           [pjoin sentDir "sentiment.marshal" ++ ".temp_backup"]) := by
        unfold backup_current_model liveSlots
        simp only [List.foldl_cons, List.foldl_nil]
        rw [hc1]
        simp only [Option.isSome_some, if_true]
        rw [upd_ne _ _ _ _ (by decide), hc2]
        simp only [Option.isSome_none, Bool.false_eq_true, if_false]
        simp
      have hb1v : (backup_current_model fs).1
          (pjoin sentDir "sentiment.marshal" ++ ".temp_backup") = some c1 := by
        rw [hbk]
        simp only
        rw [upd_same]
      have hbkp2 : (backup_current_model fs).1 (pjoin sentDir "sentiment.marshal.3") = none := by
        rw [hbk]
        simp only
        rw [upd_ne _ _ _ _ (by decide), hc2]
      have hbk2 : (backup_current_model fs).2 =
          [pjoin sentDir "sentiment.marshal" ++ ".temp_backup"] := by
        rw [hbk]
      have htr1 : (temp_replace_model (backup_current_model fs).1 model_path).1
          (pjoin sentDir "sentiment.marshal" ++ ".temp_backup") = some c1 := by
        rw [temp_replace_frame _ _ _ (by decide) (by decide)]
        exact hb1v
      have htrP2 : (temp_replace_model (backup_current_model fs).1 model_path).1
          (pjoin sentDir "sentiment.marshal.3") = none := by
        rw [temp_replace_missing _ _ _ hbkp2]
        exact hbkp2
      unfold test_model_worker
      simp only
      rw [hbk2]
      simp only [List.isEmpty_cons, Bool.false_eq_true, if_false]
      rw [restore_only1 _ c1 htr1]
      refine ⟨?_, ?_, fun _ => ?_, fun hs => ?_⟩
      · rw [upd_ne _ _ _ _ (by decide), upd_same]
      · rw [upd_ne _ _ _ _ (by decide), upd_ne _ _ _ _ (by decide), htrP2]
      · rw [upd_same]
      · simp at hs
  | none =>
    cases hc2 : fs (pjoin sentDir "sentiment.marshal.3") with
    | some c2 =>
      have hbk : backup_current_model fs =
          (upd fs (pjoin sentDir "sentiment.marshal.3" ++ ".temp_backup") (some c2),
           [pjoin sentDir "sentiment.marshal.3" ++ ".temp_backup"]) := by
        unfold backup_current_model liveSlots
        simp only [List.foldl_cons, List.foldl_nil]
        rw [hc1]
        simp only [Option.isSome_none, Bool.false_eq_true, if_false]
        rw [hc2]
        simp only [Option.isSome_some, if_true]
        simp
      have hb2v : (backup_current_model fs).1
          (pjoin sentDir "sentiment.marshal.3" ++ ".temp_backup") = some c2 := by
        rw [hbk]
        simp only
        rw [upd_same]
      have hbkp1 : (backup_current_model fs).1 (pjoin sentDir "sentiment.marshal") = none := by
        rw [hbk]
        simp only
        rw [upd_ne _ _ _ _ (by decide), hc1]
      have hbk2 : (backup_current_model fs).2 =
          [pjoin sentDir "sentiment.marshal.3" ++ ".temp_backup"] := by
        rw [hbk]
      have htr2 : (temp_replace_model (backup_current_model fs).1 model_path).1
          (pjoin sentDir "sentiment.marshal.3" ++ ".temp_backup") = some c2 := by
        rw [temp_replace_frame _ _ _ (by decide) (by decide)]
        exact hb2v
      have htrP1 : (temp_replace_model (backup_current_model fs).1 model_path).1
          (pjoin sentDir "sentiment.marshal") = none := by
        rw [temp_replace_missing _ _ _ hbkp1]
        exact hbkp1
      unfold test_model_worker
      simp only
      rw [hbk2]
      simp only [List.isEmpty_cons, Bool.false_eq_true, if_false]
      rw [restore_only2 _ c2 htr2]
      refine ⟨?_, ?_, fun hs => ?_, fun _ => ?_⟩
      · rw [upd_ne _ _ _ _ (by decide), upd_ne _ _ _ _ (by decide), htrP1]
      · rw [upd_ne _ _ _ _ (by decide), upd_same]
      · simp at hs
      · rw [upd_same]
    | none =>
      have hbk : backup_current_model fs = (fs, []) := by
        unfold backup_current_model liveSlots
        simp only [List.foldl_cons, List.foldl_nil]
        rw [hc1]
        simp only [Option.isSome_none, Bool.false_eq_true, if_false]
        rw [hc2]
        simp only [Option.isSome_none, Bool.false_eq_true, if_false]
      have hbkp1 : (backup_current_model fs).1 (pjoin sentDir "sentiment.marshal") = none := by
        rw [hbk]
        exact hc1
      have hbkp2 : (backup_current_model fs).1 (pjoin sentDir "sentiment.marshal.3") = none := by
        rw [hbk]
        exact hc2
      have hbk2 : (backup_current_model fs).2 = [] := by
        rw [hbk]
      have htrP1 : (temp_replace_model (backup_current_model fs).1 model_path).1
          (pjoin sentDir "sentiment.marshal") = none := by
        rw [temp_replace_missing _ _ _ hbkp1]
        exact hbkp1
      have htrP2 : (temp_replace_model (backup_current_model fs).1 model_path).1
          (pjoin sentDir "sentiment.marshal.3") = none := by
        rw [temp_replace_missing _ _ _ hbkp2]
        exact hbkp2
      unfold test_model_worker
      simp only
      rw [hbk2]
      simp only [List.isEmpty_nil, if_true]
      refine ⟨?_, ?_, fun hs => ?_, fun hs => ?_⟩
      · rw [htrP1]
      · rw [htrP2]
      · simp at hs
      · simp at hs

/-- Witness for the C4 theorem: with both live slots present and an
injected benchmark exception, the session still restores both slots and
deletes the temp backups. -/
theorem test_model_worker_restores_witness :
    (test_model_worker
        (upd (upd emptyFS (pjoin sentDir "sentiment.marshal") (some [1]))
          (pjoin sentDir "sentiment.marshal.3") (some [2])) "cand" true).1
        (pjoin sentDir "sentiment.marshal") =
      (upd (upd emptyFS (pjoin sentDir "sentiment.marshal") (some [1]))
        (pjoin sentDir "sentiment.marshal.3") (some [2]))
        (pjoin sentDir "sentiment.marshal") ∧
    (test_model_worker
        (upd (upd emptyFS (pjoin sentDir "sentiment.marshal") (some [1]))
          (pjoin sentDir "sentiment.marshal.3") (some [2])) "cand" true).1
        (pjoin sentDir "sentiment.marshal.3") =
      (upd (upd emptyFS (pjoin sentDir "sentiment.marshal") (some [1]))
        (pjoin sentDir "sentiment.marshal.3") (some [2]))
        (pjoin sentDir "sentiment.marshal.3") ∧
    (test_model_worker
        (upd (upd emptyFS (pjoin sentDir "sentiment.marshal") (some [1]))
          (pjoin sentDir "sentiment.marshal.3") (some [2])) "cand" true).1
        (pjoin sentDir "sentiment.marshal" ++ ".temp_backup") = none ∧
    (test_model_worker
        (upd (upd emptyFS (pjoin sentDir "sentiment.marshal") (some [1]))
          (pjoin sentDir "sentiment.marshal.3") (some [2])) "cand" true).1
        (pjoin sentDir "sentiment.marshal.3" ++ ".temp_backup") = none := by
  have h := test_model_worker_restores
    (upd (upd emptyFS (pjoin sentDir "sentiment.marshal") (some [1]))
      (pjoin sentDir "sentiment.marshal.3") (some [2])) "cand" true
  exact ⟨h.1, h.2.1, h.2.2.1 (by decide), h.2.2.2 (by decide)⟩
